import Mathlib

/-!
# Enigma.go: a shallow embedding of the rotor cipher engine

The Go program keeps a list of rotors (wiring string, notch byte, position),
a reflector string and a plugboard map, and encrypts a message one character
at a time: every character in 'A'..'Z' first steps the rotors and is then
sent through plugboard, rotors, reflector, rotors (backwards), plugboard.

Conventions of the embedding.

* A `byte` is a natural number (below 256); byte subtraction wraps modulo 256.
* An `int` is an integer; every arithmetic result is wrapped into the 64-bit
  range, and `%` is the remainder of truncated division.
* A Go string is the list of its bytes.  `range` over a string decodes UTF-8,
  and `string(x)` encodes one code point as UTF-8.
* An index out of range makes the Go program panic; the embedded function
  then returns `none`.
* The rotor slice `[]*Rotor` holds pointers.  `EncryptLetter` only reads the
  rotors, so it takes the list of the rotors pointed to.  `Rotate` writes
  through its pointer, so the stepping code is embedded twice: `RotateRotors`
  and `EncryptMessage` take the list of the rotors pointed to and are the code
  on a slice in which no pointer occurs twice; `RotateRotorsPtr` and
  `EncryptMessagePtr` take the memory and the slice of pointers and are the
  code on every slice, also one with the same rotor in two slots.  On a slice
  without a repeated pointer the two agree (`rotateRotorsPtr_distinct`,
  `encryptRunesPtr_distinct`, `EncryptMessagePtr_distinct`).
-/

namespace Enigma

/-! ## Go arithmetic -/

/-- Wrap an integer into the range of Go's 64-bit `int`. -/
def wrapInt (x : Int) : Int := (x + 2 ^ 63) % 2 ^ 64 - 2 ^ 63

/-- Go's `%` on `int`: remainder of the division that truncates toward zero. -/
def goMod (a b : Int) : Int := Int.tmod a b

/-- Subtraction of two bytes, wrapping modulo 256. -/
def byteSub (a b : Nat) : Nat := (a % 256 + 256 - b % 256) % 256

/-- Conversion `byte(x)` of an `int`: the low eight bits. -/
def toByte (x : Int) : Nat := (x % 256).toNat

/-! ## UTF-8, as seen by `range` and by `string(x)` -/

/-- UTF-8 encoding of one code point, the result of Go's `string(r)`; a value
that is not a Unicode scalar value is encoded as U+FFFD. -/
def encodeRune (r : Nat) : List Nat :=
  if r < 0x80 then [r]
  else if r < 0x800 then [0xC0 + r / 64, 0x80 + r % 64]
  else if 0xD800 ≤ r ∧ r ≤ 0xDFFF then [0xEF, 0xBF, 0xBD]
  else if r < 0x10000 then [0xE0 + r / 4096, 0x80 + r / 64 % 64, 0x80 + r % 64]
  else if r < 0x110000 then
    [0xF0 + r / 262144, 0x80 + r / 4096 % 64, 0x80 + r / 64 % 64, 0x80 + r % 64]
  else [0xEF, 0xBF, 0xBD]

/-- Concatenated UTF-8 encodings of a sequence of code points. -/
def encodeRunes : List Nat → List Nat
  | [] => []
  | r :: rest => encodeRune r ++ encodeRunes rest

/-- A continuation byte of UTF-8, 0x80..0xBF. -/
def isCont (b : Nat) : Bool := decide (0x80 ≤ b ∧ b ≤ 0xBF)

/-- Decode the first code point of a byte string the way Go's `range` does:
the result is the code point and the number of bytes consumed.  An invalid or
truncated sequence yields U+FFFD and consumes one byte. -/
def decodeRune : List Nat → Nat × Nat
  | [] => (0xFFFD, 1)
  | b0 :: rest =>
    if b0 < 0x80 then (b0, 1)
    else if 0xC0 ≤ b0 ∧ b0 < 0xE0 then
      match rest with
      | b1 :: _ =>
        if isCont b1 = true ∧ 0x7F < b0 % 32 * 64 + b1 % 64 then
          (b0 % 32 * 64 + b1 % 64, 2)
        else (0xFFFD, 1)
      | _ => (0xFFFD, 1)
    else if 0xE0 ≤ b0 ∧ b0 < 0xF0 then
      match rest with
      | b1 :: b2 :: _ =>
        if isCont b1 = true ∧ isCont b2 = true
            ∧ 0x7FF < b0 % 16 * 4096 + b1 % 64 * 64 + b2 % 64
            ∧ ¬ (0xD800 ≤ b0 % 16 * 4096 + b1 % 64 * 64 + b2 % 64
                ∧ b0 % 16 * 4096 + b1 % 64 * 64 + b2 % 64 ≤ 0xDFFF) then
          (b0 % 16 * 4096 + b1 % 64 * 64 + b2 % 64, 3)
        else (0xFFFD, 1)
      | _ => (0xFFFD, 1)
    else if 0xF0 ≤ b0 ∧ b0 < 0xF8 then
      match rest with
      | b1 :: b2 :: b3 :: _ =>
        if isCont b1 = true ∧ isCont b2 = true ∧ isCont b3 = true
            ∧ 0xFFFF < b0 % 8 * 262144 + b1 % 64 * 4096 + b2 % 64 * 64 + b3 % 64
            ∧ b0 % 8 * 262144 + b1 % 64 * 4096 + b2 % 64 * 64 + b3 % 64 ≤ 0x10FFFF then
          (b0 % 8 * 262144 + b1 % 64 * 4096 + b2 % 64 * 64 + b3 % 64, 4)
        else (0xFFFD, 1)
      | _ => (0xFFFD, 1)
    else (0xFFFD, 1)

/-- The code points `range` yields from a byte string; `skip` counts the bytes
of the current code point that are still to be passed over. -/
def decodeFrom : Nat → List Nat → List Nat
  | _, [] => []
  | skip + 1, _ :: rest => decodeFrom skip rest
  | 0, b :: rest =>
    (decodeRune (b :: rest)).1 :: decodeFrom ((decodeRune (b :: rest)).2 - 1) rest

/-- The sequence of characters (code points) of a Go string, in `range` order. -/
def decodeRunes (s : List Nat) : List Nat := decodeFrom 0 s

/-! ## The data model -/

/-- The struct `Rotor`: wiring string, notch byte, current position. -/
structure Rotor where
  mapping : List Nat
  notch : Nat
  position : Int
deriving DecidableEq, Repr

/-- The type `Plugboard`, a `map[byte]byte`, as an association list. -/
abbrev Plugboard := List (Nat × Nat)

/-- The type `Reflector`, a string. -/
abbrev Reflector := List Nat

/-! ## The operations -/

/-- `Plugboard.Transform`: the image of the letter when it is a key of the
map, the letter itself otherwise. -/
def Plugboard.Transform (p : Plugboard) (letter : Nat) : Nat :=
  match List.lookup letter p with
  | some transformed => transformed
  | none => letter

/-- `Rotor.TransformForward`; `none` when `r.mapping[offset]` is out of range. -/
def Rotor.TransformForward (r : Rotor) (letter : Nat) : Option Nat :=
  let offset := goMod (wrapInt ((byteSub letter 65 : Nat) + r.position)) 26
  if offset < 0 then none
  else
    match r.mapping[offset.toNat]? with
    | none => none
    | some transformed =>
      some (toByte (wrapInt (goMod (wrapInt (wrapInt ((byteSub transformed 65 : Nat)
        - r.position) + 26)) 26 + 65)))

/-- Go's `strings.IndexByte`: index of the first occurrence, or -1. -/
def IndexByte (s : List Nat) (c : Nat) : Int :=
  if c ∈ s then (List.indexOf c s : Nat) else -1

/-- `Rotor.TransformBackward`. -/
def Rotor.TransformBackward (r : Rotor) (letter : Nat) : Nat :=
  let shifted := goMod (wrapInt ((byteSub letter 65 : Nat) + r.position)) 26
  let index := IndexByte r.mapping (toByte (wrapInt (shifted + 65)))
  toByte (wrapInt (goMod (wrapInt (wrapInt (index - r.position) + 26)) 26 + 65))

/-- `Rotor.Rotate`: the stepped rotor and the returned flag; `none` when
`r.mapping[r.position]` is out of range. -/
def Rotor.Rotate (r : Rotor) : Option (Rotor × Bool) :=
  let position := goMod (wrapInt (r.position + 1)) 26
  if position < 0 then none
  else
    match r.mapping[position.toNat]? with
    | none => none
    | some c => some (Rotor.mk r.mapping r.notch position, decide (c = r.notch))

/-- The forward pass of `EncryptLetter`: `for _, rotor := range rotors`. -/
def forwardLoop : List Rotor → Nat → Option Nat
  | [], letter => some letter
  | rotor :: rest, letter =>
    match rotor.TransformForward letter with
    | none => none
    | some l => forwardLoop rest l

/-- The backward pass of `EncryptLetter`: `for i := len(rotors) - 1; i >= 0; i--`. -/
def backwardLoop : List Rotor → Nat → Nat
  | [], letter => letter
  | rotor :: rest, letter => rotor.TransformBackward (backwardLoop rest letter)

/-- `EncryptLetter`; `none` when a rotor or the reflector is indexed out of range. -/
def EncryptLetter (letter : Nat) (rotors : List Rotor) (reflector : Reflector)
    (plugboard : Plugboard) : Option Nat :=
  match forwardLoop rotors (Plugboard.Transform plugboard letter) with
  | none => none
  | some l =>
    match reflector[byteSub l 65]? with
    | none => none
    | some l2 => some (Plugboard.Transform plugboard (backwardLoop rotors l2))

/-- The loop of `RotateRotors` over the rotors after the first, on a slice
in which no pointer occurs twice: each one is rotated while the flag
`rotateNext` is set. -/
def rotateLoop : List Rotor → Bool → Option (List Rotor)
  | [], _ => some []
  | rotor :: rest, false => some (rotor :: rest)
  | rotor :: rest, true =>
    match rotor.Rotate with
    | none => none
    | some (rotor1, rotateNext) =>
      match rotateLoop rest rotateNext with
      | none => none
      | some rest1 => some (rotor1 :: rest1)

/-- `RotateRotors` on a slice in which no pointer occurs twice, given as the
list of the rotors pointed to; the result is the list of those rotors after
the call, `none` when `rotors[0]` does not exist or a `Rotate` panics.  For a
slice that may hold the same pointer twice see `RotateRotorsPtr`. -/
def RotateRotors : List Rotor → Option (List Rotor)
  | [] => none
  | rotor :: rest =>
    match rotor.Rotate with
    | none => none
    | some (rotor1, rotateNext) =>
      match rotateLoop rest rotateNext with
      | none => none
      | some rest1 => some (rotor1 :: rest1)

/-- One iteration of the loop of `EncryptMessage` on the character `letter`:
the code point whose `string(...)` is appended, and the rotors afterwards. -/
def encryptStep (letter : Nat) (rotors : List Rotor) (reflector : Reflector)
    (plugboard : Plugboard) : Option (Nat × List Rotor) :=
  if 65 ≤ letter ∧ letter ≤ 90 then
    match RotateRotors rotors with
    | none => none
    | some rotors1 =>
      match EncryptLetter (letter % 256) rotors1 reflector plugboard with
      | none => none
      | some c => some (c, rotors1)
  else some (letter, rotors)

/-- The loop of `EncryptMessage` over the characters of the message: the code
points appended to `encrypted`, and the rotors at the end. -/
def encryptRunes : List Nat → List Rotor → Reflector → Plugboard →
    Option (List Nat × List Rotor)
  | [], rotors, _, _ => some ([], rotors)
  | letter :: rest, rotors, reflector, plugboard =>
    match encryptStep letter rotors reflector plugboard with
    | none => none
    | some (c, rotors1) =>
      match encryptRunes rest rotors1 reflector plugboard with
      | none => none
      | some (out, rotors2) => some (c :: out, rotors2)

/-- `EncryptMessage` on a rotor slice in which no pointer occurs twice, given
as the list of the rotors pointed to: the returned string and the rotors as
the call leaves them; `none` when the call panics.  For a slice that may hold
the same pointer twice see `EncryptMessagePtr`. -/
def EncryptMessage (message : List Nat) (rotors : List Rotor) (reflector : Reflector)
    (plugboard : Plugboard) : Option (List Nat × List Rotor) :=
  match encryptRunes (decodeRunes message) rotors reflector plugboard with
  | none => none
  | some (out, rotors1) => some (encodeRunes out, rotors1)

/-! ## The machine set up in `main` -/

/-- Rotor I of `main`: wiring EKMFLGDQVZNTOWYHXUSPAIBRCJ, notch Q. -/
def rotorI : Rotor :=
  ⟨[69, 75, 77, 70, 76, 71, 68, 81, 86, 90, 78, 84, 79, 87, 89, 72, 88, 85, 83, 80, 65, 73,
    66, 82, 67, 74], 81, 0⟩

/-- Rotor II of `main`: wiring AJDKSIRUXBLHWTMCQGZNPYFVOE, notch E. -/
def rotorII : Rotor :=
  ⟨[65, 74, 68, 75, 83, 73, 82, 85, 88, 66, 76, 72, 87, 84, 77, 67, 81, 71, 90, 78, 80, 89,
    70, 86, 79, 69], 69, 0⟩

/-- Rotor III of `main`: wiring BDFHJLCPRTXVZNYEIWGAKMUSQO, notch V. -/
def rotorIII : Rotor :=
  ⟨[66, 68, 70, 72, 74, 76, 67, 80, 82, 84, 88, 86, 90, 78, 89, 69, 73, 87, 71, 65, 75, 77,
    85, 83, 81, 79], 86, 0⟩

/-- The rotor list of `main`, all at position 0. -/
def presetRotors : List Rotor := [rotorI, rotorII, rotorIII]

/-- The reflector of `main`: YRUHQSLDPXNGOKMIEBFZCWVJAT. -/
def presetReflector : Reflector :=
  [89, 82, 85, 72, 81, 83, 76, 68, 80, 88, 78, 71, 79, 75, 77, 73, 69, 66, 70, 90, 67, 87,
    86, 74, 65, 84]

/-- The plugboard of `main`: A and Z swapped, B and Y swapped. -/
def presetPlugboard : Plugboard := [(65, 90), (90, 65), (66, 89), (89, 66)]

/-! ## Predicates on configurations -/

/-- A byte in 'A'..'Z'. -/
def isLetter (b : Nat) : Prop := 65 ≤ b ∧ b ≤ 90

instance (b : Nat) : Decidable (isLetter b) := by unfold isLetter; infer_instance

/-- The 26 letters 'A'..'Z' in order. -/
def alphabet : List Nat := (List.range 26).map (fun i => i + 65)

/-- The wiring is a permutation of 'A'..'Z' and the position is in 0..25. -/
def ValidRotor (r : Rotor) : Prop :=
  List.Perm r.mapping alphabet ∧ 0 ≤ r.position ∧ r.position < 26

instance (r : Rotor) : Decidable (ValidRotor r) := by unfold ValidRotor; infer_instance


/-- The rotor can be indexed by every position 0..25. -/
def WellFormedRotor (r : Rotor) : Prop :=
  26 ≤ r.mapping.length ∧ 0 ≤ r.position ∧ r.position < 26

instance (r : Rotor) : Decidable (WellFormedRotor r) := by
  unfold WellFormedRotor; infer_instance

/-- The reflector is an involution on the 26 letters: the entry of every
letter is a letter whose entry is the first letter again. -/
def ReflectorInvolution (reflector : Reflector) : Prop :=
  ∀ i, i < 26 → isLetter (reflector.getD i 0)
    ∧ reflector.getD (reflector.getD i 0 - 65) 0 = i + 65

instance (reflector : Reflector) : Decidable (ReflectorInvolution reflector) := by
  unfold ReflectorInvolution; infer_instance

/-- No letter is its own entry in the reflector. -/
def ReflectorFixedPointFree (reflector : Reflector) : Prop :=
  ∀ i, i < 26 → reflector.getD i 0 ≠ i + 65

instance (reflector : Reflector) : Decidable (ReflectorFixedPointFree reflector) := by
  unfold ReflectorFixedPointFree; infer_instance

/-- The plugboard is an involution on letters: it sends every letter to a
letter that it sends back. -/
def PlugboardInvolution (plugboard : Plugboard) : Prop :=
  ∀ i, i < 26 → isLetter (Plugboard.Transform plugboard (i + 65))
    ∧ Plugboard.Transform plugboard (Plugboard.Transform plugboard (i + 65)) = i + 65

instance (plugboard : Plugboard) : Decidable (PlugboardInvolution plugboard) := by
  unfold PlugboardInvolution; infer_instance

/-- The rotor `r1` is the rotor `r` with a possibly different position in
0..25: same wiring, same notch. -/
def SameWiring (r r1 : Rotor) : Prop :=
  r1.mapping = r.mapping ∧ r1.notch = r.notch ∧ 0 ≤ r1.position ∧ r1.position < 26

/-- The rotor lists reachable from `rotors` by calls of `RotateRotors`. -/
inductive Reachable (rotors : List Rotor) : List Rotor → Prop
  | start : Reachable rotors rotors
  | step {rs rs1 : List Rotor} : Reachable rotors rs → RotateRotors rs = some rs1 →
      Reachable rotors rs1

/-- Number of characters in 'A'..'Z' in a sequence of characters. -/
def letterCount : List Nat → Nat
  | [] => 0
  | c :: rest => (if 65 ≤ c ∧ c ≤ 90 then 1 else 0) + letterCount rest

/-- A Unicode scalar value: a code point up to U+10FFFF that is not a surrogate. -/
def isScalar (r : Nat) : Prop := r < 0xD800 ∨ (0xDFFF < r ∧ r < 0x110000)

instance (r : Nat) : Decidable (isScalar r) := by unfold isScalar; infer_instance

/-- The byte string is well-formed UTF-8: it is the encoding of a sequence of
Unicode scalar values. -/
def WellFormedUTF8 (s : List Nat) : Prop :=
  ∃ runes : List Nat, (∀ r ∈ runes, isScalar r) ∧ s = encodeRunes runes

/-- A string of 26 bytes, each in 'A'..'Z' (not necessarily a permutation). -/
def LetterString (s : List Nat) : Prop := s.length = 26 ∧ ∀ c ∈ s, isLetter c

instance (s : List Nat) : Decidable (LetterString s) := by
  unfold LetterString; infer_instance

/-- The rotor `r1` has the wiring and the notch of the rotor `r`. -/
def KeepsWiring (r r1 : Rotor) : Prop := r1.mapping = r.mapping ∧ r1.notch = r.notch

/-- The call `r.Rotate()` returns a carry. -/
def carries (r : Rotor) : Prop := ∃ r1, r.Rotate = some (r1, true)

/-- The rotor `r1` is the rotor `r` after one call `r.Rotate()`. -/
def advancedTo (r r1 : Rotor) : Prop := ∃ flag, r.Rotate = some (r1, flag)

/-- The configuration is malformed in the sense of the specification: some
wiring is not a permutation of 'A'..'Z', or the reflector is not an involution
or has a fixed point, or the plugboard has one direction of a pair only. -/
def Malformed (rotors : List Rotor) (reflector : Reflector) (plugboard : Plugboard) : Prop :=
  (∃ r ∈ rotors, ¬ List.Perm r.mapping alphabet)
    ∨ ¬ ReflectorInvolution reflector ∨ ¬ ReflectorFixedPointFree reflector
    ∨ (∃ a b, List.lookup a plugboard = some b ∧ List.lookup b plugboard ≠ some a)

/-! ## The rotor slice as a slice of pointers

`rotors []*Rotor` holds pointers, and `Rotate` writes through its pointer.
The definitions above take the list of the rotors pointed to, which is the
slice when no pointer occurs twice in it.  The definitions below keep the
pointers: they say what the code does on every slice, also on one that holds
the same rotor in two slots. -/

/-- The memory that holds the `Rotor` structs: a pointer `*Rotor` is an index
into it, and an index outside it is the nil pointer. -/
abbrev Heap := List Rotor

/-- The call `Rotate` through the pointer `a`: the struct in memory is replaced
by the stepped one; `none` on a nil pointer or when `Rotate` panics. -/
def RotatePtr (heap : Heap) (a : Nat) : Option (Heap × Bool) :=
  match heap[a]? with
  | none => none
  | some r =>
    match r.Rotate with
    | none => none
    | some (r1, flag) => some (heap.set a r1, flag)

/-- The loop of `RotateRotors` over the pointers after the first. -/
def rotateLoopPtr : Heap → List Nat → Bool → Option Heap
  | heap, [], _ => some heap
  | heap, _ :: _, false => some heap
  | heap, a :: rest, true =>
    match RotatePtr heap a with
    | none => none
    | some (heap1, rotateNext) => rotateLoopPtr heap1 rest rotateNext

/-- `RotateRotors` on a slice of pointers: the memory after the call. -/
def RotateRotorsPtr (heap : Heap) : List Nat → Option Heap
  | [] => none
  | a :: rest =>
    match RotatePtr heap a with
    | none => none
    | some (heap1, rotateNext) => rotateLoopPtr heap1 rest rotateNext

/-- The rotors a slice of pointers points to, in slice order; `none` when one
of the pointers is nil. -/
def deref (heap : Heap) : List Nat → Option (List Rotor)
  | [] => some []
  | a :: rest =>
    match heap[a]? with
    | none => none
    | some r =>
      match deref heap rest with
      | none => none
      | some rs => some (r :: rs)

/-- `EncryptLetter` on a slice of pointers: the rotors are only read. -/
def EncryptLetterPtr (letter : Nat) (heap : Heap) (rotors : List Nat) (reflector : Reflector)
    (plugboard : Plugboard) : Option Nat :=
  match deref heap rotors with
  | none => none
  | some rs => EncryptLetter letter rs reflector plugboard

/-- One iteration of the loop of `EncryptMessage` on a slice of pointers. -/
def encryptStepPtr (letter : Nat) (heap : Heap) (rotors : List Nat) (reflector : Reflector)
    (plugboard : Plugboard) : Option (Nat × Heap) :=
  if 65 ≤ letter ∧ letter ≤ 90 then
    match RotateRotorsPtr heap rotors with
    | none => none
    | some heap1 =>
      match EncryptLetterPtr (letter % 256) heap1 rotors reflector plugboard with
      | none => none
      | some c => some (c, heap1)
  else some (letter, heap)

/-- The loop of `EncryptMessage` on a slice of pointers: the code points
appended to `encrypted`, and the memory at the end. -/
def encryptRunesPtr : List Nat → Heap → List Nat → Reflector → Plugboard →
    Option (List Nat × Heap)
  | [], heap, _, _, _ => some ([], heap)
  | letter :: rest, heap, rotors, reflector, plugboard =>
    match encryptStepPtr letter heap rotors reflector plugboard with
    | none => none
    | some (c, heap1) =>
      match encryptRunesPtr rest heap1 rotors reflector plugboard with
      | none => none
      | some (out, heap2) => some (c :: out, heap2)

/-- `EncryptMessage` on a slice of pointers: the returned string and the
memory as the call leaves it; `none` when the call panics. -/
def EncryptMessagePtr (message : List Nat) (heap : Heap) (rotors : List Nat)
    (reflector : Reflector) (plugboard : Plugboard) : Option (List Nat × Heap) :=
  match encryptRunesPtr (decodeRunes message) heap rotors reflector plugboard with
  | none => none
  | some (out, heap1) => some (encodeRunes out, heap1)

/-- The pointer `a` holds a rotor that can be indexed by every position. -/
def cellWellFormed (heap : Heap) (a : Nat) : Prop :=
  ∃ r, heap[a]? = some r ∧ WellFormedRotor r

/-! ## Arithmetic lemmas -/

theorem byteSub_lt (a b : Nat) : byteSub a b < 256 := by
  unfold byteSub; omega

theorem byteSub_letter {x : Nat} (h : isLetter x) : byteSub x 65 = x - 65 := by
  unfold isLetter at h; unfold byteSub; omega

theorem wrapInt_eq {x : Int} (h1 : -1000000 ≤ x) (h2 : x < 1000000) : wrapInt x = x := by
  unfold wrapInt
  norm_num
  omega

theorem goMod_natCast (n : Nat) : goMod (n : Int) 26 = ((n % 26 : Nat) : Int) := by
  unfold goMod
  rw [Int.tmod_eq_emod (by omega) (by omega)]
  omega

theorem toByte_natCast {n : Nat} (h : n < 256) : toByte (n : Int) = n := by
  unfold toByte; omega

/-- The forward substitution at a position in 0..25, all wrapping resolved. -/
theorem forward_of_pos (r : Rotor) (p x : Nat) (hp : r.position = p) (hlt : p < 26) :
    r.TransformForward x =
      (r.mapping[(byteSub x 65 + p) % 26]?).map
        (fun t => 65 + (byteSub t 65 + 26 - p) % 26) := by
  have hx := byteSub_lt x 65
  have h1 : wrapInt ((byteSub x 65 : Nat) + (p : Int)) = ((byteSub x 65 + p : Nat) : Int) := by
    rw [wrapInt_eq (by omega) (by omega)]; push_cast; rfl
  unfold Rotor.TransformForward
  simp only [hp, h1, goMod_natCast]
  have h2 : ¬ (((byteSub x 65 + p) % 26 : Nat) : Int) < 0 := by omega
  simp only [h2, if_false, Int.toNat_ofNat]
  cases hm : r.mapping[(byteSub x 65 + p) % 26]? with
  | none => simp
  | some t =>
    have ht := byteSub_lt t 65
    have h3 : wrapInt ((byteSub t 65 : Nat) - (p : Int)) = (byteSub t 65 : Nat) - (p : Int) :=
      wrapInt_eq (by omega) (by omega)
    have h4 : wrapInt ((byteSub t 65 : Nat) - (p : Int) + 26)
        = ((byteSub t 65 + 26 - p : Nat) : Int) := by
      rw [wrapInt_eq (by omega) (by omega)]; omega
    simp only [h3, h4, goMod_natCast, Option.map_some']
    have h5 : wrapInt ((((byteSub t 65 + 26 - p) % 26 : Nat) : Int) + 65)
        = ((65 + (byteSub t 65 + 26 - p) % 26 : Nat) : Int) := by
      rw [wrapInt_eq (by omega) (by omega)]; omega
    rw [h5, toByte_natCast (by omega)]

/-- The backward substitution at a position in 0..25 when the byte is found
in the wiring, all wrapping resolved. -/
theorem backward_of_pos (r : Rotor) (p x j : Nat) (hp : r.position = p) (hlt : p < 26)
    (hj : IndexByte r.mapping (65 + (byteSub x 65 + p) % 26) = (j : Int)) (hj26 : j < 26) :
    r.TransformBackward x = 65 + (j + 26 - p) % 26 := by
  have hx := byteSub_lt x 65
  have h1 : wrapInt ((byteSub x 65 : Nat) + (p : Int)) = ((byteSub x 65 + p : Nat) : Int) := by
    rw [wrapInt_eq (by omega) (by omega)]; push_cast; rfl
  have h2 : wrapInt ((((byteSub x 65 + p) % 26 : Nat) : Int) + 65)
      = ((65 + (byteSub x 65 + p) % 26 : Nat) : Int) := by
    rw [wrapInt_eq (by omega) (by omega)]; omega
  unfold Rotor.TransformBackward
  simp only [hp, h1, goMod_natCast, h2]
  rw [toByte_natCast (by omega), hj]
  clear h1 h2 hj hx
  have h3 : wrapInt ((j : Int) - (p : Int)) = j - p := wrapInt_eq (by omega) (by omega)
  have h4 : wrapInt ((j : Int) - (p : Int) + 26) = ((j + 26 - p : Nat) : Int) := by
    rw [wrapInt_eq (by omega) (by omega)]; omega
  simp only [h3, h4, goMod_natCast]
  clear h3 h4
  have h5 : wrapInt ((((j + 26 - p) % 26 : Nat) : Int) + 65)
      = ((65 + (j + 26 - p) % 26 : Nat) : Int) := by
    rw [wrapInt_eq (by omega) (by omega)]; omega
  rw [h5, toByte_natCast (by omega)]

/-- The rotor step at a position in 0..25, all wrapping resolved. -/
theorem rotate_of_pos (r : Rotor) (p : Nat) (hp : r.position = p) (hlt : p < 26) :
    r.Rotate = (r.mapping[(p + 1) % 26]?).map
      (fun c => (Rotor.mk r.mapping r.notch (((p + 1) % 26 : Nat) : Int), decide (c = r.notch))) := by
  have h1 : wrapInt ((p : Int) + 1) = ((p + 1 : Nat) : Int) := by
    rw [wrapInt_eq (by omega) (by omega)]; rfl
  unfold Rotor.Rotate
  simp only [hp, h1, goMod_natCast]
  have h2 : ¬ (((p + 1) % 26 : Nat) : Int) < 0 := by omega
  simp only [h2, if_false, Int.toNat_ofNat]
  cases r.mapping[(p + 1) % 26]? <;> simp

theorem mem_alphabet {c : Nat} : c ∈ alphabet ↔ isLetter c := by
  unfold alphabet isLetter
  simp only [List.mem_map, List.mem_range]
  constructor
  · rintro ⟨i, hi, rfl⟩; omega
  · intro h; exact ⟨c - 65, by omega, by omega⟩

theorem alphabet_nodup : alphabet.Nodup := by decide

theorem wiring_length {m : List Nat} (h : List.Perm m alphabet) : m.length = 26 := by
  rw [h.length_eq]; rfl

theorem wiring_get_letter {m : List Nat} (h : List.Perm m alphabet) {i : Nat} {t : Nat}
    (ht : m[i]? = some t) : isLetter t := by
  rw [← mem_alphabet, ← h.mem_iff]
  exact List.getElem?_mem ht

theorem wiring_index_of_get {m : List Nat} (h : List.Perm m alphabet) {i : Nat} {t : Nat}
    (ht : m[i]? = some t) : IndexByte m t = i := by
  have hmem : t ∈ m := List.getElem?_mem ht
  obtain ⟨hi, hget⟩ := List.getElem?_eq_some.mp ht
  unfold IndexByte
  rw [if_pos hmem]
  have hnd : m.Nodup := (h.nodup_iff).mpr alphabet_nodup
  have := List.indexOf_getElem hnd i hi
  rw [hget] at this
  exact_mod_cast this

theorem wiring_get_index {m : List Nat} (h : List.Perm m alphabet) {c : Nat} (hc : isLetter c) :
    ∃ j : Nat, j < 26 ∧ IndexByte m c = j ∧ m[j]? = some c := by
  have hmem : c ∈ m := by rw [h.mem_iff]; exact mem_alphabet.mpr hc
  have hlt : List.indexOf c m < m.length := List.indexOf_lt_length.mpr hmem
  refine ⟨List.indexOf c m, by rw [← wiring_length h]; exact hlt, ?_, ?_⟩
  · unfold IndexByte; rw [if_pos hmem]
  · rw [List.getElem?_eq_getElem hlt]
    congr 1
    exact List.indexOf_get hlt

/-- On a valid rotor the forward substitution sends a letter to a letter that
the backward substitution sends back. -/
theorem forward_backward {r : Rotor} (hr : ValidRotor r) {x : Nat} (hx : isLetter x) :
    ∃ y, r.TransformForward x = some y ∧ isLetter y ∧ r.TransformBackward y = x := by
  obtain ⟨hperm, hp0, hp1⟩ := hr
  obtain ⟨p, hp⟩ := Int.eq_ofNat_of_zero_le hp0
  have hlt : p < 26 := by omega
  have hlen := wiring_length hperm
  have hx' := byteSub_letter hx
  unfold isLetter at hx
  have hi : (byteSub x 65 + p) % 26 < r.mapping.length := by omega
  obtain ⟨t, ht⟩ : ∃ t, r.mapping[(byteSub x 65 + p) % 26]? = some t :=
    ⟨_, List.getElem?_eq_getElem hi⟩
  have htl := wiring_get_letter hperm ht
  have ht' := byteSub_letter htl
  refine ⟨65 + (byteSub t 65 + 26 - p) % 26, ?_, ?_, ?_⟩
  · rw [forward_of_pos r p x hp hlt, ht]; rfl
  · unfold isLetter; omega
  · unfold isLetter at htl
    have h6 : 65 + (byteSub (65 + (byteSub t 65 + 26 - p) % 26) 65 + p) % 26 = t := by
      have : byteSub (65 + (byteSub t 65 + 26 - p) % 26) 65 = (byteSub t 65 + 26 - p) % 26 := by
        unfold byteSub; omega
      rw [this]; omega
    have h7 := wiring_index_of_get hperm ht
    rw [← h6] at h7
    rw [backward_of_pos r p _ _ hp hlt h7 (by omega)]
    omega

/-- On a valid rotor the backward substitution sends a letter to a letter that
the forward substitution sends back. -/
theorem backward_forward {r : Rotor} (hr : ValidRotor r) {y : Nat} (hy : isLetter y) :
    isLetter (r.TransformBackward y) ∧ r.TransformForward (r.TransformBackward y) = some y := by
  obtain ⟨hperm, hp0, hp1⟩ := hr
  obtain ⟨p, hp⟩ := Int.eq_ofNat_of_zero_le hp0
  have hlt : p < 26 := by omega
  have hlen := wiring_length hperm
  have hy' := byteSub_letter hy
  unfold isLetter at hy
  have hc : isLetter (65 + (byteSub y 65 + p) % 26) := by unfold isLetter; omega
  obtain ⟨j, hj, hidx, hget⟩ := wiring_get_index hperm hc
  have hb : r.TransformBackward y = 65 + (j + 26 - p) % 26 := by
    exact backward_of_pos r p y j hp hlt hidx hj
  rw [hb]
  refine ⟨by unfold isLetter; omega, ?_⟩
  rw [forward_of_pos r p _ hp hlt]
  have h1 : (byteSub (65 + (j + 26 - p) % 26) 65 + p) % 26 = j := by
    have : byteSub (65 + (j + 26 - p) % 26) 65 = (j + 26 - p) % 26 := by
      unfold byteSub; omega
    rw [this]; omega
  rw [h1, hget]
  simp only [Option.map_some', Option.some.injEq]
  have : byteSub (65 + (byteSub y 65 + p) % 26) 65 = (byteSub y 65 + p) % 26 := by
    unfold byteSub; omega
  rw [this]; omega

theorem validRotor_wellFormed {r : Rotor} (h : ValidRotor r) : WellFormedRotor r :=
  ⟨by rw [wiring_length h.1], h.2.1, h.2.2⟩

/-- A well-formed rotor sends every byte forward to a letter, without panic. -/
theorem forward_wellFormed {r : Rotor} (hr : WellFormedRotor r) (x : Nat) :
    ∃ y, r.TransformForward x = some y ∧ isLetter y := by
  obtain ⟨hlen, hp0, hp1⟩ := hr
  obtain ⟨p, hp⟩ := Int.eq_ofNat_of_zero_le hp0
  have hlt : p < 26 := by omega
  have hi : (byteSub x 65 + p) % 26 < r.mapping.length := by omega
  refine ⟨65 + (byteSub (r.mapping[(byteSub x 65 + p) % 26]) 65 + 26 - p) % 26, ?_, ?_⟩
  · rw [forward_of_pos r p x hp hlt, List.getElem?_eq_getElem hi]; rfl
  · unfold isLetter; omega

theorem forwardLoop_wellFormed {rotors : List Rotor} (hr : ∀ r ∈ rotors, WellFormedRotor r)
    (hne : rotors ≠ []) (x : Nat) : ∃ y, forwardLoop rotors x = some y ∧ isLetter y := by
  induction rotors generalizing x with
  | nil => exact absurd rfl hne
  | cons r rest ih =>
    obtain ⟨y, hy, hyl⟩ := forward_wellFormed (hr r (List.mem_cons_self _ _)) x
    by_cases hrest : rest = []
    · subst hrest
      exact ⟨y, by simp [forwardLoop, hy], hyl⟩
    · obtain ⟨z, hz, hzl⟩ := ih (fun r hm => hr r (List.mem_cons_of_mem _ hm)) hrest y
      exact ⟨z, by simp [forwardLoop, hy, hz], hzl⟩

theorem forwardLoop_backwardLoop {rotors : List Rotor} (hr : ∀ r ∈ rotors, ValidRotor r)
    {x : Nat} (hx : isLetter x) :
    ∃ y, forwardLoop rotors x = some y ∧ isLetter y ∧ backwardLoop rotors y = x := by
  induction rotors generalizing x with
  | nil => exact ⟨x, rfl, hx, rfl⟩
  | cons r rest ih =>
    obtain ⟨y, hy, hyl, hby⟩ := forward_backward (hr r (List.mem_cons_self _ _)) hx
    obtain ⟨z, hz, hzl, hbz⟩ := ih (fun r hm => hr r (List.mem_cons_of_mem _ hm)) hyl
    exact ⟨z, by simp [forwardLoop, hy, hz], hzl, by simp [backwardLoop, hbz, hby]⟩

theorem backwardLoop_forwardLoop {rotors : List Rotor} (hr : ∀ r ∈ rotors, ValidRotor r)
    {y : Nat} (hy : isLetter y) :
    isLetter (backwardLoop rotors y) ∧ forwardLoop rotors (backwardLoop rotors y) = some y := by
  induction rotors generalizing y with
  | nil => exact ⟨hy, rfl⟩
  | cons r rest ih =>
    obtain ⟨hl, hf⟩ := ih (fun r hm => hr r (List.mem_cons_of_mem _ hm)) hy
    obtain ⟨hl2, hf2⟩ := backward_forward (hr r (List.mem_cons_self _ _)) hl
    exact ⟨by simpa [backwardLoop] using hl2, by simp [forwardLoop, backwardLoop, hf2, hf]⟩

theorem reflector_involution {reflector : Reflector} (h : ReflectorInvolution reflector)
    {x : Nat} (hx : isLetter x) :
    ∃ c, reflector[byteSub x 65]? = some c ∧ isLetter c ∧ reflector[byteSub c 65]? = some x := by
  have hget : ∀ i c, isLetter c → reflector.getD i 0 = c → reflector[i]? = some c := by
    intro i c hc hi
    rw [List.getD_eq_getElem?_getD] at hi
    cases hq : reflector[i]? with
    | none => rw [hq] at hi; simp at hi; unfold isLetter at hc; omega
    | some d => rw [hq] at hi; simp at hi; rw [hi]
  rw [byteSub_letter hx]
  have hx2 := hx
  unfold isLetter at hx2
  obtain ⟨h1, h2⟩ := h (x - 65) (by omega)
  refine ⟨reflector.getD (x - 65) 0, hget _ _ h1 rfl, h1, ?_⟩
  rw [byteSub_letter h1]
  exact hget _ _ hx (by rw [h2]; omega)

theorem plugboard_involution {plugboard : Plugboard} (h : PlugboardInvolution plugboard)
    {x : Nat} (hx : isLetter x) :
    isLetter (Plugboard.Transform plugboard x)
      ∧ Plugboard.Transform plugboard (Plugboard.Transform plugboard x) = x := by
  have hx2 := hx
  unfold isLetter at hx2
  have h1 := h (x - 65) (by omega)
  have h2 : x - 65 + 65 = x := by omega
  rw [h2] at h1
  exact h1

/-- The substitution pipeline on a valid configuration: a letter is sent to
a letter that the pipeline sends back, and, when the reflector has no fixed
point, to a different letter. -/
theorem encryptLetter_valid {rotors : List Rotor} {reflector : Reflector}
    {plugboard : Plugboard} (hr : ∀ r ∈ rotors, ValidRotor r)
    (hrefl : ReflectorInvolution reflector) (hplug : PlugboardInvolution plugboard)
    {x : Nat} (hx : isLetter x) :
    ∃ y, EncryptLetter x rotors reflector plugboard = some y ∧ isLetter y
      ∧ EncryptLetter y rotors reflector plugboard = some x
      ∧ (ReflectorFixedPointFree reflector → y ≠ x) := by
  obtain ⟨hpl, hpp⟩ := plugboard_involution hplug hx
  obtain ⟨g, hg, hgl, hbg⟩ := forwardLoop_backwardLoop hr hpl
  obtain ⟨c, hc, hcl, hcc⟩ := reflector_involution hrefl hgl
  obtain ⟨hbl, hfb⟩ := backwardLoop_forwardLoop hr hcl
  obtain ⟨hyl, hyy⟩ := plugboard_involution hplug hbl
  refine ⟨Plugboard.Transform plugboard (backwardLoop rotors c), ?_, hyl, ?_, ?_⟩
  · simp [EncryptLetter, hg, hc]
  · simp [EncryptLetter, hyy, hfb, hcc, hbg, hpp]
  · intro hfpf hyx
    have h1 : backwardLoop rotors c = Plugboard.Transform plugboard x := by
      rw [← hyy, hyx]
    rw [h1, hg] at hfb
    have hcg : g = c := Option.some.inj hfb
    subst hcg
    have hg2 := hgl
    unfold isLetter at hg2
    have := hfpf (g - 65) (by omega)
    rw [byteSub_letter hgl] at hc
    apply this
    rw [List.getD_eq_getElem?_getD, hc]
    simp; omega

/-- The substitution pipeline on a well-formed configuration with at least
one rotor returns, whatever the byte. -/
theorem encryptLetter_wellFormed {rotors : List Rotor} {reflector : Reflector}
    (plugboard : Plugboard) (hr : ∀ r ∈ rotors, WellFormedRotor r) (hne : rotors ≠ [])
    (hrefl : 26 ≤ reflector.length) (x : Nat) :
    ∃ y, EncryptLetter x rotors reflector plugboard = some y := by
  obtain ⟨g, hg, hgl⟩ := forwardLoop_wellFormed hr hne (Plugboard.Transform plugboard x)
  have hb := byteSub_letter hgl
  unfold isLetter at hgl
  have hi : byteSub g 65 < reflector.length := by omega
  exact ⟨Plugboard.Transform plugboard (backwardLoop rotors reflector[byteSub g 65]),
    by simp [EncryptLetter, hg, List.getElem?_eq_getElem hi]⟩

/-! ## Stepping -/

theorem rotate_wellFormed {r : Rotor} (hr : WellFormedRotor r) :
    ∃ r1 flag, r.Rotate = some (r1, flag) ∧ SameWiring r r1
      ∧ r1.position = (r.position + 1) % 26
      ∧ (flag = true ↔ r.mapping[((r.position + 1) % 26).toNat]? = some r.notch) := by
  obtain ⟨hlen, hp0, hp1⟩ := hr
  obtain ⟨p, hp⟩ := Int.eq_ofNat_of_zero_le hp0
  have hlt : p < 26 := by omega
  have hi : (p + 1) % 26 < r.mapping.length := by omega
  have hpos : (r.position + 1) % 26 = (((p + 1) % 26 : Nat) : Int) := by omega
  refine ⟨Rotor.mk r.mapping r.notch (((p + 1) % 26 : Nat) : Int),
    decide (r.mapping[(p + 1) % 26] = r.notch), ?_, ⟨rfl, rfl, ?_, ?_⟩, ?_, ?_⟩
  · rw [rotate_of_pos r p hp hlt, List.getElem?_eq_getElem hi]; rfl
  · show (0 : Int) ≤ (((p + 1) % 26 : Nat) : Int); omega
  · show (((p + 1) % 26 : Nat) : Int) < 26; omega
  · exact hpos.symm
  · rw [hpos, Int.toNat_ofNat, List.getElem?_eq_getElem hi]
    simp

theorem sameWiring_wellFormed_rotor {r r1 : Rotor} (h : SameWiring r r1) (hr : WellFormedRotor r) :
    WellFormedRotor r1 :=
  ⟨by rw [h.1]; exact hr.1, h.2.2.1, h.2.2.2⟩

theorem sameWiring_valid_rotor {r r1 : Rotor} (h : SameWiring r r1) (hr : ValidRotor r) :
    ValidRotor r1 :=
  ⟨by rw [h.1]; exact hr.1, h.2.2.1, h.2.2.2⟩

theorem sameWiring_refl_rotor {r : Rotor} (hr : WellFormedRotor r) : SameWiring r r :=
  ⟨rfl, rfl, hr.2.1, hr.2.2⟩

theorem sameWiring_refl_list {rotors : List Rotor} (hr : ∀ r ∈ rotors, WellFormedRotor r) :
    List.Forall₂ SameWiring rotors rotors := by
  induction rotors with
  | nil => exact List.Forall₂.nil
  | cons r rest ih =>
    exact List.Forall₂.cons (sameWiring_refl_rotor (hr r (List.mem_cons_self _ _)))
      (ih (fun r hm => hr r (List.mem_cons_of_mem _ hm)))

theorem sameWiring_wellFormed {rotors rotors1 : List Rotor}
    (h : List.Forall₂ SameWiring rotors rotors1) (hr : ∀ r ∈ rotors, WellFormedRotor r) :
    ∀ r ∈ rotors1, WellFormedRotor r := by
  induction h with
  | nil => intro r hm; cases hm
  | cons hab _ ih =>
    intro r hm
    rcases List.mem_cons.mp hm with rfl | hm
    · exact sameWiring_wellFormed_rotor hab (hr _ (List.mem_cons_self _ _))
    · exact ih (fun r hm => hr r (List.mem_cons_of_mem _ hm)) r hm

theorem sameWiring_valid {rotors rotors1 : List Rotor}
    (h : List.Forall₂ SameWiring rotors rotors1) (hr : ∀ r ∈ rotors, ValidRotor r) :
    ∀ r ∈ rotors1, ValidRotor r := by
  induction h with
  | nil => intro r hm; cases hm
  | cons hab _ ih =>
    intro r hm
    rcases List.mem_cons.mp hm with rfl | hm
    · exact sameWiring_valid_rotor hab (hr _ (List.mem_cons_self _ _))
    · exact ih (fun r hm => hr r (List.mem_cons_of_mem _ hm)) r hm

theorem rotateLoop_wellFormed {rotors : List Rotor} (hr : ∀ r ∈ rotors, WellFormedRotor r)
    (flag : Bool) :
    ∃ rotors1, rotateLoop rotors flag = some rotors1 ∧ List.Forall₂ SameWiring rotors rotors1 := by
  induction rotors generalizing flag with
  | nil => exact ⟨[], by cases flag <;> rfl, List.Forall₂.nil⟩
  | cons r rest ih =>
    cases flag with
    | false => exact ⟨r :: rest, rfl, sameWiring_refl_list hr⟩
    | true =>
      obtain ⟨r1, f, h1, hs, -, -⟩ := rotate_wellFormed (hr r (List.mem_cons_self _ _))
      obtain ⟨rest1, h2, hs2⟩ := ih (fun r hm => hr r (List.mem_cons_of_mem _ hm)) f
      exact ⟨r1 :: rest1, by simp [rotateLoop, h1, h2], List.Forall₂.cons hs hs2⟩

/-- On well-formed rotors `RotateRotors` returns; the first rotor advances by
one, wirings and notches are kept, positions stay in 0..25. -/
theorem rotateRotors_wellFormed {r : Rotor} {rest : List Rotor}
    (hr : ∀ x ∈ r :: rest, WellFormedRotor x) :
    ∃ r1 rest1, RotateRotors (r :: rest) = some (r1 :: rest1)
      ∧ List.Forall₂ SameWiring (r :: rest) (r1 :: rest1)
      ∧ r1.position = (r.position + 1) % 26
      ∧ rotateLoop rest (decide (r.mapping[((r.position + 1) % 26).toNat]? = some r.notch))
          = some rest1 := by
  obtain ⟨r1, f, h1, hs, hpos, hflag⟩ := rotate_wellFormed (hr r (List.mem_cons_self _ _))
  obtain ⟨rest1, h2, hs2⟩ := rotateLoop_wellFormed (fun r hm => hr r (List.mem_cons_of_mem _ hm)) f
  refine ⟨r1, rest1, by simp [RotateRotors, h1, h2], List.Forall₂.cons hs hs2, hpos, ?_⟩
  have : decide (r.mapping[((r.position + 1) % 26).toNat]? = some r.notch) = f := by
    cases f with
    | true => exact decide_eq_true (hflag.mp rfl)
    | false =>
      apply decide_eq_false
      intro h
      exact Bool.false_ne_true (hflag.mpr h)
  rw [this, h2]

/-! ## UTF-8 -/

theorem decodeRune_scalar (s : List Nat) : isScalar (decodeRune s).1 := by
  unfold isScalar
  match s with
  | [] => simp only [decodeRune]; omega
  | [b0] =>
    simp only [decodeRune]
    split_ifs <;> simp only [] <;> omega
  | [b0, b1] =>
    simp only [decodeRune]
    split_ifs <;> simp only [] <;> omega
  | [b0, b1, b2] =>
    simp only [decodeRune]
    split_ifs <;> simp only [] <;> omega
  | b0 :: b1 :: b2 :: b3 :: rest =>
    simp only [decodeRune]
    split_ifs <;> simp only [] <;> omega

theorem decodeFrom_scalar (s : List Nat) (skip : Nat) : ∀ r ∈ decodeFrom skip s, isScalar r := by
  induction s generalizing skip with
  | nil => intro r hr; simp [decodeFrom] at hr
  | cons b rest ih =>
    cases skip with
    | zero =>
      intro r hr
      simp only [decodeFrom, List.mem_cons] at hr
      rcases hr with rfl | hr
      · exact decodeRune_scalar _
      · exact ih _ r hr
    | succ k =>
      intro r hr
      simp only [decodeFrom] at hr
      exact ih _ r hr

theorem decodeFrom_encodeRune {r : Nat} (hr : isScalar r) (rest : List Nat) :
    decodeFrom 0 (encodeRune r ++ rest) = r :: decodeFrom 0 rest := by
  unfold isScalar at hr
  unfold encodeRune
  split_ifs with h1 h2 h3 h4 h5
  · have hd : decodeRune (r :: rest) = (r, 1) := by
      simp only [decodeRune]; rw [if_pos h1]
    show decodeFrom 0 (r :: rest) = _
    rw [decodeFrom, hd]; rfl
  · have e : (0xC0 + r / 64) % 32 * 64 + (0x80 + r % 64) % 64 = r := by omega
    have c1 : ¬ (0xC0 + r / 64 < 0x80) := by omega
    have c2 : 0xC0 ≤ 0xC0 + r / 64 ∧ 0xC0 + r / 64 < 0xE0 := by omega
    have c3 : isCont (0x80 + r % 64) = true := by simp [isCont]; omega
    have hd : decodeRune ((0xC0 + r / 64) :: (0x80 + r % 64) :: rest) = (r, 2) := by
      simp only [decodeRune]
      rw [if_neg c1, if_pos c2, if_pos ⟨c3, by omega⟩, e]
    show decodeFrom 0 ((0xC0 + r / 64) :: (0x80 + r % 64) :: rest) = _
    rw [decodeFrom, hd]; rfl
  · omega
  · have e : (0xE0 + r / 4096) % 16 * 4096 + (0x80 + r / 64 % 64) % 64 * 64
        + (0x80 + r % 64) % 64 = r := by omega
    have c1 : ¬ (0xE0 + r / 4096 < 0x80) := by omega
    have c2 : ¬ (0xC0 ≤ 0xE0 + r / 4096 ∧ 0xE0 + r / 4096 < 0xE0) := by omega
    have c3 : 0xE0 ≤ 0xE0 + r / 4096 ∧ 0xE0 + r / 4096 < 0xF0 := by omega
    have c4 : isCont (0x80 + r / 64 % 64) = true := by simp [isCont]; omega
    have c5 : isCont (0x80 + r % 64) = true := by simp [isCont]; omega
    have hd : decodeRune ((0xE0 + r / 4096) :: (0x80 + r / 64 % 64) :: (0x80 + r % 64) :: rest)
        = (r, 3) := by
      simp only [decodeRune]
      rw [if_neg c1, if_neg c2, if_pos c3, e, if_pos ⟨c4, c5, by omega, by omega⟩]
    show decodeFrom 0 ((0xE0 + r / 4096) :: (0x80 + r / 64 % 64) :: (0x80 + r % 64) :: rest) = _
    rw [decodeFrom, hd]; rfl
  · have e : (0xF0 + r / 262144) % 8 * 262144 + (0x80 + r / 4096 % 64) % 64 * 4096
        + (0x80 + r / 64 % 64) % 64 * 64 + (0x80 + r % 64) % 64 = r := by omega
    have c1 : ¬ (0xF0 + r / 262144 < 0x80) := by omega
    have c2 : ¬ (0xC0 ≤ 0xF0 + r / 262144 ∧ 0xF0 + r / 262144 < 0xE0) := by omega
    have c3 : ¬ (0xE0 ≤ 0xF0 + r / 262144 ∧ 0xF0 + r / 262144 < 0xF0) := by omega
    have c4 : 0xF0 ≤ 0xF0 + r / 262144 ∧ 0xF0 + r / 262144 < 0xF8 := by omega
    have c5 : isCont (0x80 + r / 4096 % 64) = true := by simp [isCont]; omega
    have c6 : isCont (0x80 + r / 64 % 64) = true := by simp [isCont]; omega
    have c7 : isCont (0x80 + r % 64) = true := by simp [isCont]; omega
    have hd : decodeRune ((0xF0 + r / 262144) :: (0x80 + r / 4096 % 64) :: (0x80 + r / 64 % 64)
        :: (0x80 + r % 64) :: rest) = (r, 4) := by
      simp only [decodeRune]
      rw [if_neg c1, if_neg c2, if_neg c3, if_pos c4, e, if_pos ⟨c5, c6, c7, by omega, by omega⟩]
    show decodeFrom 0 ((0xF0 + r / 262144) :: (0x80 + r / 4096 % 64) :: (0x80 + r / 64 % 64)
        :: (0x80 + r % 64) :: rest) = _
    rw [decodeFrom, hd]; rfl
  · omega

/-- Decoding the encoding of a sequence of scalar values gives the sequence back. -/
theorem decodeRunes_encodeRunes {runes : List Nat} (h : ∀ r ∈ runes, isScalar r) :
    decodeRunes (encodeRunes runes) = runes := by
  unfold decodeRunes
  induction runes with
  | nil => rfl
  | cons r rest ih =>
    simp only [encodeRunes]
    rw [decodeFrom_encodeRune (h r (List.mem_cons_self _ _)),
      ih (fun r hm => h r (List.mem_cons_of_mem _ hm))]

theorem isScalar_of_letter {c : Nat} (h : isLetter c) : isScalar c := by
  unfold isLetter at h; unfold isScalar; omega

/-! ## The message loop -/

theorem sameWiring_trans_rotor {a b c : Rotor} (h1 : SameWiring a b) (h2 : SameWiring b c) :
    SameWiring a c :=
  ⟨by rw [h2.1, h1.1], by rw [h2.2.1, h1.2.1], h2.2.2.1, h2.2.2.2⟩

theorem sameWiring_trans_list {as bs cs : List Rotor} (h1 : List.Forall₂ SameWiring as bs)
    (h2 : List.Forall₂ SameWiring bs cs) : List.Forall₂ SameWiring as cs := by
  induction h1 generalizing cs with
  | nil => cases h2; exact List.Forall₂.nil
  | cons hab _ ih =>
    cases h2 with
    | cons hbc htl => exact List.Forall₂.cons (sameWiring_trans_rotor hab hbc) (ih htl)

theorem encryptStep_other {c : Nat} (hc : ¬ isLetter c) (rotors : List Rotor)
    (reflector : Reflector) (plugboard : Plugboard) :
    encryptStep c rotors reflector plugboard = some (c, rotors) := by
  unfold isLetter at hc
  simp only [encryptStep, if_neg hc]

theorem encryptStep_letter {c : Nat} (hc : isLetter c) (rotors : List Rotor)
    (reflector : Reflector) (plugboard : Plugboard) :
    encryptStep c rotors reflector plugboard =
      match RotateRotors rotors with
      | none => none
      | some rotors1 =>
        match EncryptLetter c rotors1 reflector plugboard with
        | none => none
        | some d => some (d, rotors1) := by
  have h256 : c % 256 = c := by unfold isLetter at hc; omega
  unfold isLetter at hc
  simp only [encryptStep, if_pos hc, h256]

/-- One iteration on a letter, well-formed configuration: the iteration
returns, and the rotors are stepped once by `RotateRotors`. -/
theorem encryptStep_wellFormed {c : Nat} (hc : isLetter c) {r : Rotor} {rest : List Rotor}
    {reflector : Reflector} (plugboard : Plugboard)
    (hr : ∀ x ∈ r :: rest, WellFormedRotor x) (hrefl : 26 ≤ reflector.length) :
    ∃ d r1 rest1, encryptStep c (r :: rest) reflector plugboard = some (d, r1 :: rest1)
      ∧ RotateRotors (r :: rest) = some (r1 :: rest1)
      ∧ List.Forall₂ SameWiring (r :: rest) (r1 :: rest1)
      ∧ r1.position = (r.position + 1) % 26 := by
  obtain ⟨r1, rest1, hrot, hsame, hpos, -⟩ := rotateRotors_wellFormed hr
  have hwf1 := sameWiring_wellFormed hsame hr
  obtain ⟨d, hd⟩ := encryptLetter_wellFormed plugboard hwf1 (List.cons_ne_nil _ _) hrefl c
  refine ⟨d, r1, rest1, ?_, hrot, hsame, hpos⟩
  rw [encryptStep_letter hc, hrot]
  simp only [hd]

/-- One iteration on a letter, valid configuration: the output is a letter,
and the same iteration on the output letter gives the input letter back. -/
theorem encryptStep_valid {c : Nat} (hc : isLetter c) {rotors : List Rotor}
    {reflector : Reflector} {plugboard : Plugboard} (hne : rotors ≠ [])
    (hr : ∀ r ∈ rotors, ValidRotor r) (hrefl : ReflectorInvolution reflector)
    (hplug : PlugboardInvolution plugboard) :
    ∃ d rotors1, encryptStep c rotors reflector plugboard = some (d, rotors1)
      ∧ encryptStep d rotors reflector plugboard = some (c, rotors1)
      ∧ isLetter d ∧ (ReflectorFixedPointFree reflector → d ≠ c)
      ∧ rotors1 ≠ [] ∧ List.Forall₂ SameWiring rotors rotors1 := by
  cases rotors with
  | nil => exact absurd rfl hne
  | cons r rest =>
    obtain ⟨r1, rest1, hrot, hsame, -, -⟩ :=
      rotateRotors_wellFormed (fun x hx => validRotor_wellFormed (hr x hx))
    have hv1 := sameWiring_valid hsame hr
    obtain ⟨d, hd, hdl, hdd, hfp⟩ := encryptLetter_valid hv1 hrefl hplug hc
    refine ⟨d, r1 :: rest1, ?_, ?_, hdl, hfp, List.cons_ne_nil _ _, hsame⟩
    · rw [encryptStep_letter hc, hrot]; simp only [hd]
    · rw [encryptStep_letter hdl, hrot]; simp only [hdd]

/-- Whenever the loop returns, every character outside 'A'..'Z' is appended
unchanged, and every character in 'A'..'Z' yields exactly one character. -/
theorem encryptRunes_passThrough (runes : List Nat) (rotors : List Rotor)
    (reflector : Reflector) (plugboard : Plugboard) {out : List Nat} {rotors1 : List Rotor}
    (h : encryptRunes runes rotors reflector plugboard = some (out, rotors1)) :
    List.Forall₂ (fun c d => ¬ isLetter c → d = c) runes out := by
  induction runes generalizing rotors out with
  | nil =>
    simp only [encryptRunes, Option.some.injEq, Prod.mk.injEq] at h
    rw [← h.1]; exact List.Forall₂.nil
  | cons c rest ih =>
    simp only [encryptRunes] at h
    cases hs : encryptStep c rotors reflector plugboard with
    | none => simp [hs] at h
    | some p =>
      obtain ⟨d, rotorsA⟩ := p
      simp only [hs] at h
      cases ht : encryptRunes rest rotorsA reflector plugboard with
      | none => simp [ht] at h
      | some q =>
        obtain ⟨out2, rotorsB⟩ := q
        simp only [ht, Option.some.injEq, Prod.mk.injEq] at h
        rw [← h.1]
        rw [h.2] at ht
        refine List.Forall₂.cons ?_ (ih rotorsA ht)
        intro hc
        rw [encryptStep_other hc] at hs
        simp only [Option.some.injEq, Prod.mk.injEq] at hs
        exact hs.1.symm

/-- A message without a letter is passed through by the loop, whatever the
configuration, and the rotors are not touched. -/
theorem encryptRunes_noLetter (runes : List Nat) (rotors : List Rotor)
    (reflector : Reflector) (plugboard : Plugboard) (h : letterCount runes = 0) :
    encryptRunes runes rotors reflector plugboard = some (runes, rotors) := by
  induction runes with
  | nil => rfl
  | cons c rest ih =>
    simp only [letterCount] at h
    have hc : ¬ isLetter c := by
      unfold isLetter; intro hc; rw [if_pos hc] at h; omega
    have hrest : letterCount rest = 0 := by omega
    simp only [encryptRunes, encryptStep_other hc, ih hrest]

/-- The loop on a valid configuration: it returns, the output run through the
loop from the same rotors gives the input back, letters go to letters (other
letters when the reflector has no fixed point), other characters are kept. -/
theorem encryptRunes_valid {reflector : Reflector} {plugboard : Plugboard}
    (hrefl : ReflectorInvolution reflector) (hplug : PlugboardInvolution plugboard)
    (runes : List Nat) {rotors : List Rotor} (hne : rotors ≠ [])
    (hr : ∀ r ∈ rotors, ValidRotor r) :
    ∃ out rotors1, encryptRunes runes rotors reflector plugboard = some (out, rotors1)
      ∧ encryptRunes out rotors reflector plugboard = some (runes, rotors1)
      ∧ List.Forall₂ (fun c d => (isLetter c → isLetter d
          ∧ (ReflectorFixedPointFree reflector → d ≠ c)) ∧ (¬ isLetter c → d = c)) runes out
      ∧ List.Forall₂ SameWiring rotors rotors1 := by
  induction runes generalizing rotors with
  | nil =>
    exact ⟨[], rotors, rfl, rfl, List.Forall₂.nil,
      sameWiring_refl_list (fun r hm => validRotor_wellFormed (hr r hm))⟩
  | cons c rest ih =>
    by_cases hc : isLetter c
    · obtain ⟨d, rotorsA, h1, h2, hdl, hfp, hneA, hsame⟩ :=
        encryptStep_valid hc hne hr hrefl hplug
      obtain ⟨out, rotorsB, h3, h4, hrel, hsame2⟩ := ih hneA (sameWiring_valid hsame hr)
      refine ⟨d :: out, rotorsB, ?_, ?_, ?_, sameWiring_trans_list hsame hsame2⟩
      · simp only [encryptRunes, h1, h3]
      · simp only [encryptRunes, h2, h4]
      · exact List.Forall₂.cons ⟨fun _ => ⟨hdl, hfp⟩, fun hn => absurd hc hn⟩ hrel
    · obtain ⟨out, rotorsB, h3, h4, hrel, hsame2⟩ := ih hne hr
      refine ⟨c :: out, rotorsB, ?_, ?_, ?_, hsame2⟩
      · simp only [encryptRunes, encryptStep_other hc, h3]
      · simp only [encryptRunes, encryptStep_other hc, h4]
      · exact List.Forall₂.cons ⟨fun h => absurd h hc, fun _ => rfl⟩ hrel

/-- The loop on a well-formed configuration: it returns, and the first rotor
has advanced by the number of letters, modulo 26. -/
theorem encryptRunes_wellFormed {reflector : Reflector} (plugboard : Plugboard)
    (hrefl : 26 ≤ reflector.length) (runes : List Nat) {r : Rotor} {rest : List Rotor}
    (hr : ∀ x ∈ r :: rest, WellFormedRotor x) :
    ∃ out r1 rest1, encryptRunes runes (r :: rest) reflector plugboard = some (out, r1 :: rest1)
      ∧ List.Forall₂ SameWiring (r :: rest) (r1 :: rest1)
      ∧ r1.position = (r.position + letterCount runes) % 26 := by
  induction runes generalizing r rest with
  | nil =>
    refine ⟨[], r, rest, rfl, sameWiring_refl_list hr, ?_⟩
    have := (hr r (List.mem_cons_self _ _)).2
    simp only [letterCount]; omega
  | cons c cs ih =>
    by_cases hc : isLetter c
    · obtain ⟨d, rA, restA, h1, -, hsame, hpos⟩ := encryptStep_wellFormed hc plugboard hr hrefl
      obtain ⟨out, rB, restB, h3, hsame2, hpos2⟩ := ih (sameWiring_wellFormed hsame hr)
      refine ⟨d :: out, rB, restB, ?_, sameWiring_trans_list hsame hsame2, ?_⟩
      · simp only [encryptRunes, h1, h3]
      · unfold isLetter at hc
        simp only [letterCount, if_pos hc]
        rw [hpos2, hpos]; push_cast; omega
    · obtain ⟨out, rB, restB, h3, hsame2, hpos2⟩ := ih hr
      refine ⟨c :: out, rB, restB, ?_, hsame2, ?_⟩
      · simp only [encryptRunes, encryptStep_other hc, h3]
      · unfold isLetter at hc
        simp only [letterCount, if_neg hc]
        rw [hpos2]; push_cast; omega

/-! ## Inversion of the loops -/

theorem encryptRunes_cons_some {c : Nat} {cs : List Nat} {rotors : List Rotor}
    {reflector : Reflector} {plugboard : Plugboard} {out : List Nat} {rotors1 : List Rotor}
    (h : encryptRunes (c :: cs) rotors reflector plugboard = some (out, rotors1)) :
    ∃ d rotorsA out2, encryptStep c rotors reflector plugboard = some (d, rotorsA)
      ∧ encryptRunes cs rotorsA reflector plugboard = some (out2, rotors1)
      ∧ out = d :: out2 := by
  simp only [encryptRunes] at h
  cases hs : encryptStep c rotors reflector plugboard with
  | none => simp [hs] at h
  | some p =>
    obtain ⟨d, rotorsA⟩ := p
    simp only [hs] at h
    cases ht : encryptRunes cs rotorsA reflector plugboard with
    | none => simp [ht] at h
    | some q =>
      obtain ⟨out2, rotorsB⟩ := q
      simp only [ht, Option.some.injEq, Prod.mk.injEq] at h
      exact ⟨d, rotorsA, out2, rfl, by rw [← h.2, ht], h.1.symm⟩

theorem encryptStep_letter_some {c : Nat} (hc : isLetter c) {rotors : List Rotor}
    {reflector : Reflector} {plugboard : Plugboard} {d : Nat} {rotorsA : List Rotor}
    (h : encryptStep c rotors reflector plugboard = some (d, rotorsA)) :
    RotateRotors rotors = some rotorsA
      ∧ EncryptLetter c rotorsA reflector plugboard = some d := by
  rw [encryptStep_letter hc] at h
  cases hrot : RotateRotors rotors with
  | none => simp [hrot] at h
  | some rotorsB =>
    simp only [hrot] at h
    cases he : EncryptLetter c rotorsB reflector plugboard with
    | none => simp [he] at h
    | some e =>
      simp only [he, Option.some.injEq, Prod.mk.injEq] at h
      obtain ⟨h1, h2⟩ := h
      subst h1 h2
      exact ⟨rfl, he⟩

theorem EncryptMessage_some {message : List Nat} {rotors : List Rotor}
    {reflector : Reflector} {plugboard : Plugboard} {out : List Nat} {rotors1 : List Rotor}
    (h : EncryptMessage message rotors reflector plugboard = some (out, rotors1)) :
    ∃ outRunes, encryptRunes (decodeRunes message) rotors reflector plugboard
        = some (outRunes, rotors1) ∧ out = encodeRunes outRunes := by
  unfold EncryptMessage at h
  cases hs : encryptRunes (decodeRunes message) rotors reflector plugboard with
  | none => simp [hs] at h
  | some p =>
    obtain ⟨o, rs⟩ := p
    simp only [hs, Option.some.injEq, Prod.mk.injEq] at h
    exact ⟨o, by rw [← h.2], h.1.symm⟩

theorem EncryptMessage_of_runes {message : List Nat} {rotors : List Rotor}
    {reflector : Reflector} {plugboard : Plugboard} {outRunes : List Nat}
    {rotors1 : List Rotor}
    (h : encryptRunes (decodeRunes message) rotors reflector plugboard
      = some (outRunes, rotors1)) :
    EncryptMessage message rotors reflector plugboard = some (encodeRunes outRunes, rotors1) := by
  simp only [EncryptMessage, h]

/-- A step of `RotateRotors` from a first rotor at a position in 0..25, when
it returns: the first rotor is advanced by one, the others are handled by the
loop with the flag of the first. -/
theorem rotateRotors_some {r : Rotor} {rest rotors1 : List Rotor} {p : Nat}
    (hp : r.position = p) (hlt : p < 26) (h : RotateRotors (r :: rest) = some rotors1) :
    ∃ rest1, rotors1 = Rotor.mk r.mapping r.notch (((p + 1) % 26 : Nat) : Int) :: rest1
      ∧ rotateLoop rest (decide (r.mapping[(p + 1) % 26]? = some r.notch)) = some rest1 := by
  simp only [RotateRotors, rotate_of_pos r p hp hlt] at h
  cases hm : r.mapping[(p + 1) % 26]? with
  | none => simp [hm] at h
  | some c =>
    simp only [hm, Option.map_some'] at h
    have hflag : decide (some c = some r.notch) = decide (c = r.notch) := by simp
    rw [hflag]
    cases hl : rotateLoop rest (decide (c = r.notch)) with
    | none => simp [hl] at h
    | some rest1 =>
      simp only [hl, Option.some.injEq] at h
      exact ⟨rest1, h.symm, rfl⟩

/-! ## The carry from the first rotor to the second -/

theorem carry_arith (p q t k : Nat) (hp : p < 26) (ht : t < 26) :
    ((if (p + 1) % 26 = t then (q + 1) % 26 else q)
        + (k + 25 - (t + 25 - (p + 1) % 26) % 26) / 26) % 26
      = (q + (k + 1 + 25 - (t + 25 - p) % 26) / 26) % 26 := by
  split_ifs with h <;> omega

/-- In a wiring that is a permutation of the alphabet, a notch letter sits
at exactly one index. -/
theorem notch_index {m : List Nat} (h : List.Perm m alphabet) {notch : Nat}
    (hn : isLetter notch) :
    ∃ t, t < 26 ∧ ∀ i, m[i]? = some notch ↔ i = t := by
  obtain ⟨t, ht, hidx, hget⟩ := wiring_get_index h hn
  refine ⟨t, ht, fun i => ⟨fun hi => ?_, fun hi => by rw [hi]; exact hget⟩⟩
  have := wiring_index_of_get h hi
  rw [hidx] at this
  exact_mod_cast this.symm

theorem rotor_eta (r : Rotor) : Rotor.mk r.mapping r.notch r.position = r := by
  cases r; rfl


/-! ## Characters of the output -/

theorem toByte_lt (x : Int) : toByte x < 256 := by
  unfold toByte; omega

theorem TransformBackward_lt (r : Rotor) (x : Nat) : r.TransformBackward x < 256 := by
  unfold Rotor.TransformBackward; exact toByte_lt _

theorem lookup_mem {p : Plugboard} {k v : Nat} (h : List.lookup k p = some v) :
    (∃ kv ∈ p, kv.2 = v) := by
  induction p with
  | nil => simp at h
  | cons a rest ih =>
    obtain ⟨a1, a2⟩ := a
    simp only [List.lookup] at h
    split at h
    · simp only [Option.some.injEq] at h
      exact ⟨(a1, a2), List.mem_cons_self _ _, h⟩
    · obtain ⟨kv, hm, hv⟩ := ih h
      exact ⟨kv, List.mem_cons_of_mem _ hm, hv⟩

theorem plugboard_lt {p : Plugboard} (hb : ∀ kv ∈ p, kv.2 < 256) {y : Nat} (hy : y < 256) :
    Plugboard.Transform p y < 256 := by
  unfold Plugboard.Transform
  cases h : List.lookup y p with
  | none => exact hy
  | some v =>
    obtain ⟨kv, hm, hv⟩ := lookup_mem h
    simp only
    rw [← hv]; exact hb kv hm

theorem rotateRotors_ne_nil {rotors rotors1 : List Rotor}
    (h : RotateRotors rotors = some rotors1) : rotors1 ≠ [] := by
  cases rotors with
  | nil => simp [RotateRotors] at h
  | cons r rest =>
    simp only [RotateRotors] at h
    cases h1 : r.Rotate with
    | none => simp [h1] at h
    | some x =>
      obtain ⟨ra, f⟩ := x
      simp only [h1] at h
      cases h2 : rotateLoop rest f with
      | none => simp [h2] at h
      | some rest1 =>
        simp only [h2, Option.some.injEq] at h
        rw [← h]; exact List.cons_ne_nil _ _

/-- The character appended for a letter is a byte value, provided the values
of the plugboard are bytes. -/
theorem encryptStep_byte {plugboard : Plugboard} (hb : ∀ kv ∈ plugboard, kv.2 < 256)
    {c : Nat} (hc : isLetter c) {rotors : List Rotor} {reflector : Reflector}
    {d : Nat} {rotorsA : List Rotor}
    (h : encryptStep c rotors reflector plugboard = some (d, rotorsA)) : d < 256 := by
  obtain ⟨hrot, henc⟩ := encryptStep_letter_some hc h
  have hne := rotateRotors_ne_nil hrot
  unfold EncryptLetter at henc
  cases h1 : forwardLoop rotorsA (Plugboard.Transform plugboard c) with
  | none => simp [h1] at henc
  | some l =>
    simp only [h1] at henc
    cases h2 : reflector[byteSub l 65]? with
    | none => simp [h2] at henc
    | some l2 =>
      simp only [h2, Option.some.injEq] at henc
      rw [← henc]
      apply plugboard_lt hb
      cases rotorsA with
      | nil => exact absurd rfl hne
      | cons a as => exact TransformBackward_lt _ _

theorem isScalar_of_byte {c : Nat} (h : c < 256) : isScalar c := by
  unfold isScalar; omega

/-- Whenever the loop returns on characters that are scalar values, the
characters it appends are scalar values. -/
theorem encryptRunes_scalar {plugboard : Plugboard} (hb : ∀ kv ∈ plugboard, kv.2 < 256)
    (runes : List Nat) (hs : ∀ r ∈ runes, isScalar r) {rotors : List Rotor}
    {reflector : Reflector} {out : List Nat} {rotors1 : List Rotor}
    (h : encryptRunes runes rotors reflector plugboard = some (out, rotors1)) :
    ∀ r ∈ out, isScalar r := by
  induction runes generalizing rotors out with
  | nil =>
    simp only [encryptRunes, Option.some.injEq, Prod.mk.injEq] at h
    rw [← h.1]; intro r hr; cases hr
  | cons c cs ih =>
    obtain ⟨d, rotorsA, out2, hstep, htail, hout⟩ := encryptRunes_cons_some h
    subst hout
    intro r hr
    rcases List.mem_cons.mp hr with rfl | hr
    · by_cases hc : isLetter c
      · exact isScalar_of_byte (encryptStep_byte hb hc hstep)
      · rw [encryptStep_other hc] at hstep
        simp only [Option.some.injEq, Prod.mk.injEq] at hstep
        rw [← hstep.1]; exact hs c (List.mem_cons_self _ _)
    · exact ih (fun r hm => hs r (List.mem_cons_of_mem _ hm)) htail r hr

theorem forall2_getElem {R : Nat → Nat → Prop} {l1 l2 : List Nat}
    (h : List.Forall₂ R l1 l2) {i : Nat} {c : Nat} (hc : l1[i]? = some c) :
    ∃ d, l2[i]? = some d ∧ R c d := by
  induction h generalizing i with
  | nil => simp at hc
  | cons hab _ ih =>
    cases i with
    | zero =>
      simp only [List.getElem?_cons_zero, Option.some.injEq] at hc
      subst hc
      exact ⟨_, by simp, hab⟩
    | succ j =>
      simp only [List.getElem?_cons_succ] at hc ⊢
      exact ih hc

/-- On a valid configuration the characters appended for scalar values are
scalar values. -/
theorem scalar_of_rel {P : Nat → Nat → Prop} {runes out : List Nat}
    (hrel : List.Forall₂ (fun c d => (isLetter c → isLetter d ∧ P c d)
      ∧ (¬ isLetter c → d = c)) runes out)
    (hs : ∀ r ∈ runes, isScalar r) : ∀ r ∈ out, isScalar r := by
  induction hrel with
  | nil => intro r hr; cases hr
  | @cons a b l1 l2 hab _ ih =>
    intro r hr
    rcases List.mem_cons.mp hr with rfl | hr
    · by_cases hc : isLetter a
      · exact isScalar_of_letter (hab.1 hc).1
      · rw [hab.2 hc]; exact hs a (List.mem_cons_self _ _)
    · exact ih (fun r hm => hs r (List.mem_cons_of_mem _ hm)) r hr

/-! ## Reachable rotor states, and messages without their non-letters -/

theorem reachable_valid {rotors0 rotors : List Rotor} (h : Reachable rotors0 rotors)
    (hr : ∀ r ∈ rotors0, ValidRotor r) : ∀ r ∈ rotors, ValidRotor r := by
  induction h with
  | start => exact hr
  | @step rs rs1 _ hrot ih =>
    cases rs with
    | nil => simp [RotateRotors] at hrot
    | cons a as =>
      obtain ⟨r1, rest1, h1, hsame, -, -⟩ :=
        rotateRotors_wellFormed (fun x hx => validRotor_wellFormed (ih x hx))
      rw [h1] at hrot
      simp only [Option.some.injEq] at hrot
      rw [← hrot]
      exact sameWiring_valid hsame ih

/-- Whenever the loop returns, it leaves the rotors as the loop over the
letters of the message alone does. -/
theorem encryptRunes_filter (runes : List Nat) {rotors : List Rotor} {reflector : Reflector}
    {plugboard : Plugboard} {out : List Nat} {rotors1 : List Rotor}
    (h : encryptRunes runes rotors reflector plugboard = some (out, rotors1)) :
    ∃ out1, encryptRunes (runes.filter (fun c => decide (isLetter c))) rotors reflector
      plugboard = some (out1, rotors1) := by
  induction runes generalizing rotors out with
  | nil => exact ⟨out, h⟩
  | cons c cs ih =>
    obtain ⟨d, rotorsA, out2, hstep, htail, -⟩ := encryptRunes_cons_some h
    obtain ⟨out3, h3⟩ := ih htail
    by_cases hc : isLetter c
    · refine ⟨d :: out3, ?_⟩
      rw [List.filter_cons_of_pos (by simpa using hc)]
      simp only [encryptRunes, hstep, h3]
    · rw [encryptStep_other hc] at hstep
      simp only [Option.some.injEq, Prod.mk.injEq] at hstep
      rw [← hstep.2] at h3
      refine ⟨out3, ?_⟩
      rw [List.filter_cons_of_neg (by simpa using hc)]
      exact h3

/-! ## The backward substitution in general, and totality on 26-letter wirings -/

theorem IndexByte_ge (s : List Nat) (c : Nat) : -1 ≤ IndexByte s c := by
  unfold IndexByte; split <;> omega

theorem IndexByte_lt (s : List Nat) (c : Nat) : IndexByte s c < s.length := by
  unfold IndexByte
  split
  · rename_i h
    exact_mod_cast List.indexOf_lt_length.mpr h
  · omega

/-- At a position in 0..25 the backward substitution returns a letter,
whether or not the byte is found in the wiring. -/
theorem backward_letter (r : Rotor) (p x : Nat) (hp : r.position = p) (hlt : p < 26)
    (hlen : r.mapping.length ≤ 26) : isLetter (r.TransformBackward x) := by
  have hx := byteSub_lt x 65
  have h1 : wrapInt ((byteSub x 65 : Nat) + (p : Int)) = ((byteSub x 65 + p : Nat) : Int) := by
    rw [wrapInt_eq (by omega) (by omega)]; push_cast; rfl
  have h2 : wrapInt ((((byteSub x 65 + p) % 26 : Nat) : Int) + 65)
      = ((65 + (byteSub x 65 + p) % 26 : Nat) : Int) := by
    rw [wrapInt_eq (by omega) (by omega)]; omega
  unfold Rotor.TransformBackward
  simp only [hp, h1, goMod_natCast, h2]
  rw [toByte_natCast (by omega)]
  have hge := IndexByte_ge r.mapping (65 + (byteSub x 65 + p) % 26)
  have hlt2 := IndexByte_lt r.mapping (65 + (byteSub x 65 + p) % 26)
  generalize IndexByte r.mapping (65 + (byteSub x 65 + p) % 26) = i at hge hlt2
  clear h1 h2 hx hp
  have hi26 : i < 26 := by omega
  clear hlt2 hlen
  obtain ⟨n, hn⟩ := Int.eq_ofNat_of_zero_le (by omega : 0 ≤ i - (p : Int) + 26)
  have hn51 : n < 52 := by omega
  have h3 : wrapInt (i - (p : Int)) = i - p := wrapInt_eq (by omega) (by omega)
  rw [h3, hn]
  clear h3 hn hge hi26
  have h4 : wrapInt ((n : Nat) : Int) = n := wrapInt_eq (by omega) (by omega)
  rw [h4, goMod_natCast]
  have h5 : wrapInt ((((n % 26 : Nat) : Nat) : Int) + 65) = ((65 + n % 26 : Nat) : Int) := by
    rw [wrapInt_eq (by omega) (by omega)]; omega
  rw [h5, toByte_natCast (by omega)]
  unfold isLetter; omega

theorem backwardLoop_letter {rotors : List Rotor} (hne : rotors ≠ [])
    (hr : ∀ r ∈ rotors, r.mapping.length = 26 ∧ 0 ≤ r.position ∧ r.position < 26) (x : Nat) :
    isLetter (backwardLoop rotors x) := by
  cases rotors with
  | nil => exact absurd rfl hne
  | cons r rest =>
    obtain ⟨hlen, hp0, hp1⟩ := hr r (List.mem_cons_self _ _)
    obtain ⟨p, hp⟩ := Int.eq_ofNat_of_zero_le hp0
    exact backward_letter r p _ hp (by omega) (by omega)

/-- With at least one rotor, wirings of 26 bytes and positions in 0..25, a
reflector of at least 26 bytes and a plugboard that sends letters to letters,
stepping and then encrypting returns a letter, whatever the byte. -/
theorem step_encrypt_total {rotors : List Rotor} {reflector : Reflector}
    {plugboard : Plugboard} (hne : rotors ≠ [])
    (hr : ∀ r ∈ rotors, r.mapping.length = 26 ∧ 0 ≤ r.position ∧ r.position < 26)
    (hrefl : 26 ≤ reflector.length)
    (hplug : ∀ x, isLetter x → isLetter (Plugboard.Transform plugboard x)) (x : Nat) :
    ∃ rotors1 y, RotateRotors rotors = some rotors1
      ∧ EncryptLetter x rotors1 reflector plugboard = some y ∧ isLetter y := by
  have hwf : ∀ r ∈ rotors, WellFormedRotor r := fun r hm =>
    ⟨by rw [(hr r hm).1], (hr r hm).2.1, (hr r hm).2.2⟩
  cases rotors with
  | nil => exact absurd rfl hne
  | cons a as =>
    obtain ⟨r1, rest1, hrot, hsame, -, -⟩ := rotateRotors_wellFormed hwf
    have hwf1 := sameWiring_wellFormed hsame hwf
    have hr1 : ∀ r ∈ r1 :: rest1, r.mapping.length = 26 ∧ 0 ≤ r.position ∧ r.position < 26 := by
      have key : ∀ {l l1 : List Rotor}, List.Forall₂ SameWiring l l1 →
          (∀ r ∈ l, r.mapping.length = 26 ∧ 0 ≤ r.position ∧ r.position < 26) →
          ∀ r ∈ l1, r.mapping.length = 26 ∧ 0 ≤ r.position ∧ r.position < 26 := by
        intro l l1 h
        induction h with
        | nil => intro _ r hm; cases hm
        | @cons a b l1 l2 hab _ ih =>
          intro hl r hm
          rcases List.mem_cons.mp hm with rfl | hm
          · exact ⟨by rw [hab.1]; exact (hl a (List.mem_cons_self _ _)).1, hab.2.2.1, hab.2.2.2⟩
          · exact ih (fun r hm => hl r (List.mem_cons_of_mem _ hm)) r hm
      exact key hsame hr
    obtain ⟨g, hg, hgl⟩ := forwardLoop_wellFormed hwf1 (List.cons_ne_nil _ _)
      (Plugboard.Transform plugboard x)
    have hb := byteSub_letter hgl
    have hgl2 := hgl
    unfold isLetter at hgl2
    have hi : byteSub g 65 < reflector.length := by omega
    refine ⟨r1 :: rest1, Plugboard.Transform plugboard
      (backwardLoop (r1 :: rest1) reflector[byteSub g 65]), hrot, ?_, ?_⟩
    · simp [EncryptLetter, hg, List.getElem?_eq_getElem hi]
    · exact hplug _ (backwardLoop_letter (List.cons_ne_nil _ _) hr1 _)

/-! ## What stepping keeps, and the carry chain -/

theorem rotate_keeps {r r1 : Rotor} {flag : Bool} (h : r.Rotate = some (r1, flag)) :
    KeepsWiring r r1 := by
  unfold Rotor.Rotate at h
  simp only at h
  split at h
  · cases h
  · split at h
    · cases h
    · simp only [Option.some.injEq, Prod.mk.injEq] at h
      rw [← h.1]
      exact ⟨rfl, rfl⟩

theorem rotate_range {r r1 : Rotor} {flag : Bool} (hp0 : 0 ≤ r.position)
    (hp1 : r.position < 26) (h : r.Rotate = some (r1, flag)) : SameWiring r r1 := by
  obtain ⟨p, hp⟩ := Int.eq_ofNat_of_zero_le hp0
  rw [rotate_of_pos r p hp (by omega)] at h
  cases hm : r.mapping[(p + 1) % 26]? with
  | none => simp [hm] at h
  | some c =>
    simp only [hm, Option.map_some', Option.some.injEq, Prod.mk.injEq] at h
    rw [← h.1]
    refine ⟨rfl, rfl, ?_, ?_⟩
    · show (0 : Int) ≤ (((p + 1) % 26 : Nat) : Int); omega
    · show (((p + 1) % 26 : Nat) : Int) < 26; omega

theorem rotateRotors_eq_loop (r : Rotor) (rest : List Rotor) :
    RotateRotors (r :: rest) = rotateLoop (r :: rest) true := rfl

theorem rotateLoop_cons_true {r : Rotor} {rest rs1 : List Rotor}
    (h : rotateLoop (r :: rest) true = some rs1) :
    ∃ r1 flag rest1, r.Rotate = some (r1, flag) ∧ rotateLoop rest flag = some rest1
      ∧ rs1 = r1 :: rest1 := by
  simp only [rotateLoop] at h
  cases h1 : r.Rotate with
  | none => simp [h1] at h
  | some x =>
    obtain ⟨r1, flag⟩ := x
    simp only [h1] at h
    cases h2 : rotateLoop rest flag with
    | none => simp [h2] at h
    | some rest1 =>
      simp only [h2, Option.some.injEq] at h
      exact ⟨r1, flag, rest1, rfl, h2, h.symm⟩

/-- A relation that `Rotate` establishes from every rotor satisfying `Q`
holds, rotor by rotor, between the argument of the stepping loop and what it
returns. -/
theorem rotateLoop_rel {Q : Rotor → Prop} {R : Rotor → Rotor → Prop}
    (hrefl : ∀ r, Q r → R r r)
    (hrot : ∀ r r1 flag, Q r → r.Rotate = some (r1, flag) → R r r1)
    {rs : List Rotor} {flag : Bool} {rs1 : List Rotor} (hq : ∀ r ∈ rs, Q r)
    (h : rotateLoop rs flag = some rs1) : List.Forall₂ R rs rs1 := by
  induction rs generalizing flag rs1 with
  | nil =>
    have : rs1 = [] := by cases flag <;> simp [rotateLoop] at h <;> exact h
    rw [this]; exact List.Forall₂.nil
  | cons a as ih =>
    cases flag with
    | false =>
      simp only [rotateLoop, Option.some.injEq] at h
      rw [← h]
      have key : ∀ l : List Rotor, (∀ r ∈ l, Q r) → List.Forall₂ R l l := by
        intro l
        induction l with
        | nil => intro _; exact List.Forall₂.nil
        | cons b bs ihb =>
          intro hl
          exact List.Forall₂.cons (hrefl b (hl b (List.mem_cons_self _ _)))
            (ihb (fun r hm => hl r (List.mem_cons_of_mem _ hm)))
      exact key _ hq
    | true =>
      obtain ⟨r1, f, rest1, h1, h2, rfl⟩ := rotateLoop_cons_true h
      exact List.Forall₂.cons (hrot a r1 f (hq a (List.mem_cons_self _ _)) h1)
        (ih (fun r hm => hq r (List.mem_cons_of_mem _ hm)) h2)

theorem rotateRotors_rel {Q : Rotor → Prop} {R : Rotor → Rotor → Prop}
    (hrefl : ∀ r, Q r → R r r)
    (hrot : ∀ r r1 flag, Q r → r.Rotate = some (r1, flag) → R r r1)
    {rs rs1 : List Rotor} (hq : ∀ r ∈ rs, Q r) (h : RotateRotors rs = some rs1) :
    List.Forall₂ R rs rs1 := by
  cases rs with
  | nil => simp [RotateRotors] at h
  | cons a as =>
    rw [rotateRotors_eq_loop] at h
    exact rotateLoop_rel hrefl hrot hq h

theorem forall2_preserves {Q : Rotor → Prop} {R : Rotor → Rotor → Prop}
    (hpres : ∀ a b, Q a → R a b → Q b) {l l1 : List Rotor} (h : List.Forall₂ R l l1)
    (hq : ∀ r ∈ l, Q r) : ∀ r ∈ l1, Q r := by
  induction h with
  | nil => intro r hm; cases hm
  | @cons a b l1 l2 hab _ ih =>
    intro r hm
    rcases List.mem_cons.mp hm with rfl | hm
    · exact hpres a _ (hq a (List.mem_cons_self _ _)) hab
    · exact ih (fun r hm => hq r (List.mem_cons_of_mem _ hm)) r hm

theorem forall2_trans_rel {R : Rotor → Rotor → Prop} (htrans : ∀ a b c, R a b → R b c → R a c)
    {l1 l2 l3 : List Rotor} (h1 : List.Forall₂ R l1 l2) (h2 : List.Forall₂ R l2 l3) :
    List.Forall₂ R l1 l3 := by
  induction h1 generalizing l3 with
  | nil => cases h2; exact List.Forall₂.nil
  | cons hab _ ih =>
    cases h2 with
    | cons hbc htl => exact List.Forall₂.cons (htrans _ _ _ hab hbc) (ih htl)

theorem forall2_refl_rel {Q : Rotor → Prop} {R : Rotor → Rotor → Prop}
    (hrefl : ∀ r, Q r → R r r) {l : List Rotor} (hq : ∀ r ∈ l, Q r) : List.Forall₂ R l l := by
  induction l with
  | nil => exact List.Forall₂.nil
  | cons b bs ih =>
    exact List.Forall₂.cons (hrefl b (hq b (List.mem_cons_self _ _)))
      (ih (fun r hm => hq r (List.mem_cons_of_mem _ hm)))

/-- The same for the message loop, whenever it returns. -/
theorem encryptRunes_rel {Q : Rotor → Prop} {R : Rotor → Rotor → Prop}
    (hrefl : ∀ r, Q r → R r r)
    (hrot : ∀ r r1 flag, Q r → r.Rotate = some (r1, flag) → R r r1)
    (htrans : ∀ a b c, R a b → R b c → R a c) (hpres : ∀ a b, Q a → R a b → Q b)
    (runes : List Nat) {rotors : List Rotor} {reflector : Reflector} {plugboard : Plugboard}
    {out : List Nat} {rotors1 : List Rotor} (hq : ∀ r ∈ rotors, Q r)
    (h : encryptRunes runes rotors reflector plugboard = some (out, rotors1)) :
    List.Forall₂ R rotors rotors1 := by
  induction runes generalizing rotors out with
  | nil =>
    simp only [encryptRunes, Option.some.injEq, Prod.mk.injEq] at h
    rw [← h.2]; exact forall2_refl_rel hrefl hq
  | cons c cs ih =>
    obtain ⟨d, rotorsA, out2, hs, ht, -⟩ := encryptRunes_cons_some h
    by_cases hc : isLetter c
    · obtain ⟨hrotA, -⟩ := encryptStep_letter_some hc hs
      have hA := rotateRotors_rel hrefl hrot hq hrotA
      exact forall2_trans_rel htrans hA (ih (forall2_preserves hpres hA hq) ht)
    · rw [encryptStep_other hc] at hs
      simp only [Option.some.injEq, Prod.mk.injEq] at hs
      rw [← hs.2] at ht
      exact ih hq ht

theorem keepsWiring_trans (a b c : Rotor) (h1 : KeepsWiring a b) (h2 : KeepsWiring b c) :
    KeepsWiring a c :=
  ⟨by rw [h2.1, h1.1], by rw [h2.2, h1.2]⟩

theorem decodeRunes_cons_ascii {c : Nat} (hc : c < 128) (rest : List Nat) :
    decodeRunes (c :: rest) = c :: decodeRunes rest := by
  have hd : decodeRune (c :: rest) = (c, 1) := by
    simp only [decodeRune]; rw [if_pos hc]
  unfold decodeRunes
  rw [decodeFrom, hd]
  rfl

/-- The stepping loop, whenever it returns: a rotor is replaced by its
`Rotate` result exactly when the flag is set and all rotors before it carry,
and is kept as it is otherwise. -/
theorem rotateLoop_chain {rs : List Rotor} {flag : Bool} {rs1 : List Rotor}
    (h : rotateLoop rs flag = some rs1) (i : Nat) (r : Rotor) (hi : rs[i]? = some r) :
    ∃ r1, rs1[i]? = some r1
      ∧ ((flag = true ∧ ∀ j, j < i → ∃ rj, rs[j]? = some rj ∧ carries rj) → advancedTo r r1)
      ∧ (¬ (flag = true ∧ ∀ j, j < i → ∃ rj, rs[j]? = some rj ∧ carries rj) → r1 = r) := by
  induction rs generalizing flag rs1 i with
  | nil => simp at hi
  | cons a as ih =>
    cases flag with
    | false =>
      simp only [rotateLoop, Option.some.injEq] at h
      rw [← h]
      exact ⟨r, hi, fun hc => absurd hc.1 (by decide), fun _ => rfl⟩
    | true =>
      obtain ⟨a1, f, rest1, h1, h2, rfl⟩ := rotateLoop_cons_true h
      cases i with
      | zero =>
        simp only [List.getElem?_cons_zero, Option.some.injEq] at hi
        subst hi
        refine ⟨a1, by simp, fun _ => ⟨f, h1⟩, fun hn => ?_⟩
        exact absurd ⟨rfl, fun j hj => absurd hj (Nat.not_lt_zero j)⟩ hn
      | succ k =>
        simp only [List.getElem?_cons_succ] at hi
        obtain ⟨r1, hr1, hadv, hkeep⟩ := ih h2 k hi
        have hiff : (true = true ∧ ∀ j, j < k + 1 → ∃ rj, (a :: as)[j]? = some rj ∧ carries rj)
            ↔ (f = true ∧ ∀ j, j < k → ∃ rj, as[j]? = some rj ∧ carries rj) := by
          constructor
          · rintro ⟨-, hall⟩
            refine ⟨?_, fun j hj => ?_⟩
            · obtain ⟨rj, hrj, a2, ha2⟩ := hall 0 (Nat.succ_pos k)
              simp only [List.getElem?_cons_zero, Option.some.injEq] at hrj
              subst hrj
              rw [h1] at ha2
              simp only [Option.some.injEq, Prod.mk.injEq] at ha2
              exact ha2.2
            · have := hall (j + 1) (Nat.succ_lt_succ hj)
              simpa only [List.getElem?_cons_succ] using this
          · rintro ⟨hf, hall⟩
            refine ⟨rfl, fun j hj => ?_⟩
            cases j with
            | zero => exact ⟨a, by simp, a1, by rw [h1, hf]⟩
            | succ m =>
              simpa only [List.getElem?_cons_succ] using hall m (Nat.lt_of_succ_lt_succ hj)
        refine ⟨r1, by simpa only [List.getElem?_cons_succ] using hr1, ?_, ?_⟩
        · intro hc; exact hadv (hiff.mp hc)
        · intro hn; exact hkeep (fun hc => hn (hiff.mpr hc))

/-! ## Slices of pointers -/

theorem rotatePtr_some {heap heap1 : Heap} {a : Nat} {flag : Bool}
    (h : RotatePtr heap a = some (heap1, flag)) :
    ∃ r r1, heap[a]? = some r ∧ r.Rotate = some (r1, flag) ∧ heap1 = heap.set a r1 := by
  unfold RotatePtr at h
  cases hr : heap[a]? with
  | none => simp [hr] at h
  | some r =>
    simp only [hr] at h
    cases hrot : r.Rotate with
    | none => simp [hrot] at h
    | some x =>
      obtain ⟨r1, f⟩ := x
      simp only [hrot, Option.some.injEq, Prod.mk.injEq] at h
      exact ⟨r, r1, rfl, by rw [← h.2]; exact hrot, h.1.symm⟩

theorem rotatePtr_of {heap : Heap} {a : Nat} {r r1 : Rotor} {flag : Bool}
    (hr : heap[a]? = some r) (hrot : r.Rotate = some (r1, flag)) :
    RotatePtr heap a = some (heap.set a r1, flag) := by
  simp only [RotatePtr, hr, hrot]

theorem rotatePtr_none {heap : Heap} {a : Nat} {r : Rotor}
    (hr : heap[a]? = some r) (hrot : r.Rotate = none) : RotatePtr heap a = none := by
  simp only [RotatePtr, hr, hrot]

theorem set_get_self {heap : Heap} {a : Nat} {r : Rotor} (hr : heap[a]? = some r)
    (r1 : Rotor) : (heap.set a r1)[a]? = some r1 := by
  obtain ⟨hlt, -⟩ := List.getElem?_eq_some.mp hr
  exact List.getElem?_set_self hlt

theorem set_get_other (heap : Heap) {a b : Nat} (hab : a ≠ b) (r1 : Rotor) :
    (heap.set a r1)[b]? = heap[b]? :=
  List.getElem?_set_ne hab

theorem rotateLoopPtr_cons_true {heap heap1 : Heap} {a : Nat} {rest : List Nat}
    (h : rotateLoopPtr heap (a :: rest) true = some heap1) :
    ∃ heapA flag, RotatePtr heap a = some (heapA, flag)
      ∧ rotateLoopPtr heapA rest flag = some heap1 := by
  simp only [rotateLoopPtr] at h
  cases h1 : RotatePtr heap a with
  | none => simp [h1] at h
  | some x =>
    obtain ⟨heapA, flag⟩ := x
    simp only [h1] at h
    exact ⟨heapA, flag, rfl, h⟩

theorem rotateRotorsPtr_eq_loop (heap : Heap) (a : Nat) (rest : List Nat) :
    RotateRotorsPtr heap (a :: rest) = rotateLoopPtr heap (a :: rest) true := rfl

/-- The stepping loop writes only through the pointers of its slice. -/
theorem rotateLoopPtr_frame {heap heap1 : Heap} {ptrs : List Nat} {flag : Bool} {b : Nat}
    (hb : b ∉ ptrs) (h : rotateLoopPtr heap ptrs flag = some heap1) : heap1[b]? = heap[b]? := by
  induction ptrs generalizing heap flag with
  | nil =>
    have : heap1 = heap := by cases flag <;> simp [rotateLoopPtr] at h <;> exact h.symm
    rw [this]
  | cons a rest ih =>
    cases flag with
    | false =>
      simp only [rotateLoopPtr, Option.some.injEq] at h
      rw [← h]
    | true =>
      obtain ⟨heapA, f, h1, h2⟩ := rotateLoopPtr_cons_true h
      obtain ⟨r, r1, -, -, rfl⟩ := rotatePtr_some h1
      have hne : a ≠ b := fun e => hb (by rw [e]; exact List.mem_cons_self _ _)
      rw [ih (fun hm => hb (List.mem_cons_of_mem _ hm)) h2, set_get_other heap hne]

theorem deref_frame {heap heap1 : Heap} {ptrs : List Nat}
    (h : ∀ a ∈ ptrs, heap1[a]? = heap[a]?) : deref heap1 ptrs = deref heap ptrs := by
  induction ptrs with
  | nil => rfl
  | cons a rest ih =>
    simp only [deref, h a (List.mem_cons_self _ _),
      ih (fun b hb => h b (List.mem_cons_of_mem _ hb))]

theorem deref_cons_some {heap : Heap} {a : Nat} {rest : List Nat} {rotors : List Rotor}
    (h : deref heap (a :: rest) = some rotors) :
    ∃ r rs, heap[a]? = some r ∧ deref heap rest = some rs ∧ rotors = r :: rs := by
  simp only [deref] at h
  cases hr : heap[a]? with
  | none => simp [hr] at h
  | some r =>
    simp only [hr] at h
    cases hrs : deref heap rest with
    | none => simp [hrs] at h
    | some rs =>
      simp only [hrs, Option.some.injEq] at h
      exact ⟨r, rs, rfl, rfl, h.symm⟩

/-- On a slice of pairwise distinct pointers the stepping loop does to the
memory what the loop on the list of the rotors pointed to computes, panics
included, and leaves the rest of the memory alone. -/
theorem rotateLoopPtr_distinct {heap : Heap} {ptrs : List Nat} {rotors : List Rotor}
    (hnd : ptrs.Nodup) (hd : deref heap ptrs = some rotors) (flag : Bool) :
    (rotateLoop rotors flag = none → rotateLoopPtr heap ptrs flag = none)
    ∧ (∀ rotors1, rotateLoop rotors flag = some rotors1 →
        ∃ heap1, rotateLoopPtr heap ptrs flag = some heap1
          ∧ deref heap1 ptrs = some rotors1 ∧ ∀ b, b ∉ ptrs → heap1[b]? = heap[b]?) := by
  induction ptrs generalizing heap rotors flag with
  | nil =>
    simp only [deref, Option.some.injEq] at hd
    subst hd
    constructor
    · intro h; cases flag <;> simp [rotateLoop] at h
    · intro rotors1 h
      have : rotors1 = [] := by cases flag <;> simp [rotateLoop] at h <;> exact h
      subst this
      exact ⟨heap, by cases flag <;> rfl, rfl, fun _ _ => rfl⟩
  | cons a rest ih =>
    obtain ⟨r, rs, hr, hrs, rfl⟩ := deref_cons_some hd
    obtain ⟨hnot, hnd2⟩ := List.nodup_cons.mp hnd
    cases flag with
    | false =>
      constructor
      · intro h; simp [rotateLoop] at h
      · intro rotors1 h
        simp only [rotateLoop, Option.some.injEq] at h
        subst h
        exact ⟨heap, rfl, hd, fun _ _ => rfl⟩
    | true =>
      cases hrot : r.Rotate with
      | none =>
        constructor
        · intro _
          simp only [rotateLoopPtr, rotatePtr_none hr hrot]
        · intro rotors1 h
          simp [rotateLoop, hrot] at h
      | some x =>
        obtain ⟨r1, f⟩ := x
        have hA : deref (heap.set a r1) rest = some rs := by
          rw [← hrs]
          apply deref_frame
          intro b hb
          exact set_get_other heap (fun e => hnot (by rw [e]; exact hb)) r1
        obtain ⟨ihn, ihs⟩ := ih hnd2 hA f
        constructor
        · intro h
          have h2 : rotateLoop rs f = none := by
            cases hl : rotateLoop rs f with
            | none => rfl
            | some rs1 => simp [rotateLoop, hrot, hl] at h
          simp only [rotateLoopPtr, rotatePtr_of hr hrot]
          exact ihn h2
        · intro rotors1 h
          cases hl : rotateLoop rs f with
          | none => simp [rotateLoop, hrot, hl] at h
          | some rs1 =>
            simp only [rotateLoop, hrot, hl, Option.some.injEq] at h
            subst h
            obtain ⟨heap1, h1, hd1, hfr⟩ := ihs rs1 hl
            refine ⟨heap1, ?_, ?_, ?_⟩
            · simp only [rotateLoopPtr, rotatePtr_of hr hrot]
              exact h1
            · have ha : heap1[a]? = some r1 := by
                rw [hfr a hnot]; exact set_get_self hr r1
              simp only [deref, ha, hd1]
            · intro b hb
              have hba : a ≠ b := fun e => hb (by rw [e]; exact List.mem_cons_self _ _)
              rw [hfr b (fun hm => hb (List.mem_cons_of_mem _ hm)), set_get_other heap hba]

theorem encryptStepPtr_other {c : Nat} (hc : ¬ isLetter c) (heap : Heap) (ptrs : List Nat)
    (reflector : Reflector) (plugboard : Plugboard) :
    encryptStepPtr c heap ptrs reflector plugboard = some (c, heap) := by
  unfold isLetter at hc
  simp only [encryptStepPtr, if_neg hc]

theorem encryptStepPtr_letter {c : Nat} (hc : isLetter c) (heap : Heap) (ptrs : List Nat)
    (reflector : Reflector) (plugboard : Plugboard) :
    encryptStepPtr c heap ptrs reflector plugboard =
      match RotateRotorsPtr heap ptrs with
      | none => none
      | some heap1 =>
        match EncryptLetterPtr c heap1 ptrs reflector plugboard with
        | none => none
        | some d => some (d, heap1) := by
  have h256 : c % 256 = c := by unfold isLetter at hc; omega
  unfold isLetter at hc
  simp only [encryptStepPtr, if_pos hc, h256]

theorem encryptStepPtr_letter_some {c : Nat} (hc : isLetter c) {heap : Heap} {ptrs : List Nat}
    {reflector : Reflector} {plugboard : Plugboard} {d : Nat} {heapA : Heap}
    (h : encryptStepPtr c heap ptrs reflector plugboard = some (d, heapA)) :
    RotateRotorsPtr heap ptrs = some heapA
      ∧ EncryptLetterPtr c heapA ptrs reflector plugboard = some d := by
  rw [encryptStepPtr_letter hc] at h
  cases hrot : RotateRotorsPtr heap ptrs with
  | none => simp [hrot] at h
  | some heapB =>
    simp only [hrot] at h
    cases he : EncryptLetterPtr c heapB ptrs reflector plugboard with
    | none => simp [he] at h
    | some e =>
      simp only [he, Option.some.injEq, Prod.mk.injEq] at h
      obtain ⟨h1, h2⟩ := h
      subst h1 h2
      exact ⟨rfl, he⟩

theorem encryptRunesPtr_cons_some {c : Nat} {cs : List Nat} {heap : Heap} {ptrs : List Nat}
    {reflector : Reflector} {plugboard : Plugboard} {out : List Nat} {heap1 : Heap}
    (h : encryptRunesPtr (c :: cs) heap ptrs reflector plugboard = some (out, heap1)) :
    ∃ d heapA out2, encryptStepPtr c heap ptrs reflector plugboard = some (d, heapA)
      ∧ encryptRunesPtr cs heapA ptrs reflector plugboard = some (out2, heap1)
      ∧ out = d :: out2 := by
  simp only [encryptRunesPtr] at h
  cases hs : encryptStepPtr c heap ptrs reflector plugboard with
  | none => simp [hs] at h
  | some p =>
    obtain ⟨d, heapA⟩ := p
    simp only [hs] at h
    cases ht : encryptRunesPtr cs heapA ptrs reflector plugboard with
    | none => simp [ht] at h
    | some q =>
      obtain ⟨out2, heapB⟩ := q
      simp only [ht, Option.some.injEq, Prod.mk.injEq] at h
      exact ⟨d, heapA, out2, rfl, by rw [← h.2, ht], h.1.symm⟩

theorem EncryptMessagePtr_some {message : List Nat} {heap : Heap} {ptrs : List Nat}
    {reflector : Reflector} {plugboard : Plugboard} {out : List Nat} {heap1 : Heap}
    (h : EncryptMessagePtr message heap ptrs reflector plugboard = some (out, heap1)) :
    ∃ outRunes, encryptRunesPtr (decodeRunes message) heap ptrs reflector plugboard
        = some (outRunes, heap1) ∧ out = encodeRunes outRunes := by
  unfold EncryptMessagePtr at h
  cases hs : encryptRunesPtr (decodeRunes message) heap ptrs reflector plugboard with
  | none => simp [hs] at h
  | some p =>
    obtain ⟨o, hp⟩ := p
    simp only [hs, Option.some.injEq, Prod.mk.injEq] at h
    exact ⟨o, by rw [← h.2], h.1.symm⟩

theorem EncryptMessagePtr_of_runes {message : List Nat} {heap : Heap} {ptrs : List Nat}
    {reflector : Reflector} {plugboard : Plugboard} {outRunes : List Nat} {heap1 : Heap}
    (h : encryptRunesPtr (decodeRunes message) heap ptrs reflector plugboard
      = some (outRunes, heap1)) :
    EncryptMessagePtr message heap ptrs reflector plugboard
      = some (encodeRunes outRunes, heap1) := by
  simp only [EncryptMessagePtr, h]

/-! ### Calls on slices of pointers return on memory that can be indexed -/

theorem rotatePtr_total {heap : Heap} {a : Nat} (h : cellWellFormed heap a) :
    ∃ heap1 flag, RotatePtr heap a = some (heap1, flag)
      ∧ ∀ b, cellWellFormed heap b → cellWellFormed heap1 b := by
  obtain ⟨r, hr, hwf⟩ := h
  obtain ⟨r1, flag, hrot, hsame, -, -⟩ := rotate_wellFormed hwf
  refine ⟨heap.set a r1, flag, rotatePtr_of hr hrot, ?_⟩
  rintro b ⟨rb, hrb, hwfb⟩
  by_cases hab : a = b
  · subst hab
    exact ⟨r1, set_get_self hr r1, sameWiring_wellFormed_rotor hsame hwf⟩
  · exact ⟨rb, by rw [set_get_other heap hab]; exact hrb, hwfb⟩

theorem rotateLoopPtr_total {heap : Heap} {ptrs : List Nat}
    (h : ∀ a ∈ ptrs, cellWellFormed heap a) (flag : Bool) :
    ∃ heap1, rotateLoopPtr heap ptrs flag = some heap1
      ∧ ∀ b, cellWellFormed heap b → cellWellFormed heap1 b := by
  induction ptrs generalizing heap flag with
  | nil => exact ⟨heap, by cases flag <;> rfl, fun _ hb => hb⟩
  | cons a rest ih =>
    cases flag with
    | false => exact ⟨heap, rfl, fun _ hb => hb⟩
    | true =>
      obtain ⟨heapA, f, h1, hkeep⟩ := rotatePtr_total (h a (List.mem_cons_self _ _))
      obtain ⟨heap1, h2, hkeep2⟩ :=
        ih (fun b hb => hkeep b (h b (List.mem_cons_of_mem _ hb))) f
      exact ⟨heap1, by simp only [rotateLoopPtr, h1]; exact h2,
        fun b hb => hkeep2 b (hkeep b hb)⟩

theorem deref_wellFormed {heap : Heap} {ptrs : List Nat}
    (h : ∀ a ∈ ptrs, cellWellFormed heap a) :
    ∃ rs, deref heap ptrs = some rs ∧ (∀ r ∈ rs, WellFormedRotor r)
      ∧ (ptrs ≠ [] → rs ≠ []) := by
  induction ptrs with
  | nil =>
    refine ⟨[], rfl, ?_, fun hne => absurd rfl hne⟩
    intro r hm
    cases hm
  | cons a rest ih =>
    obtain ⟨r, hr, hwf⟩ := h a (List.mem_cons_self _ _)
    obtain ⟨rs, hrs, hall, -⟩ := ih (fun b hb => h b (List.mem_cons_of_mem _ hb))
    refine ⟨r :: rs, by simp only [deref, hr, hrs], ?_, fun _ => List.cons_ne_nil _ _⟩
    intro x hx
    rcases List.mem_cons.mp hx with rfl | hx
    · exact hwf
    · exact hall x hx

/-- The loop on a slice of pointers returns when the slice is not empty,
every pointer in it holds a rotor with a wiring of at least 26 bytes and a
position in 0..25, and the reflector has at least 26 bytes; a rotor may occur
in several slots. -/
theorem encryptRunesPtr_total {ptrs : List Nat} {reflector : Reflector}
    (plugboard : Plugboard) (hne : ptrs ≠ []) (hrefl : 26 ≤ reflector.length)
    (runes : List Nat) {heap : Heap} (h : ∀ a ∈ ptrs, cellWellFormed heap a) :
    ∃ out heap1, encryptRunesPtr runes heap ptrs reflector plugboard = some (out, heap1) := by
  induction runes generalizing heap with
  | nil => exact ⟨[], heap, rfl⟩
  | cons c cs ih =>
    by_cases hc : isLetter c
    · cases ptrs with
      | nil => exact absurd rfl hne
      | cons a rest =>
        obtain ⟨heapA, hrot, hkeep⟩ := rotateLoopPtr_total h true
        have hA : ∀ b ∈ a :: rest, cellWellFormed heapA b := fun b hb => hkeep b (h b hb)
        obtain ⟨rs, hrs, hall, hrsne⟩ := deref_wellFormed hA
        obtain ⟨d, hd⟩ := encryptLetter_wellFormed plugboard hall (hrsne hne) hrefl c
        obtain ⟨out, heap1, h1⟩ := ih hA
        refine ⟨d :: out, heap1, ?_⟩
        have hstep : encryptStepPtr c heap (a :: rest) reflector plugboard
            = some (d, heapA) := by
          rw [encryptStepPtr_letter hc, rotateRotorsPtr_eq_loop, hrot]
          simp only [EncryptLetterPtr, hrs, hd]
        simp only [encryptRunesPtr, hstep, h1]
    · obtain ⟨out, heap1, h1⟩ := ih h
      exact ⟨c :: out, heap1, by simp only [encryptRunesPtr, encryptStepPtr_other hc, h1]⟩

/-! ### The first rotor of a slice of pointers -/

/-- A step of `RotateRotors` on a slice whose first pointer occurs in no other
slot, when it returns: the first rotor is advanced by one. -/
theorem rotateRotorsPtr_head {heap heap1 : Heap} {a : Nat} {rest : List Nat} {r : Rotor}
    {p : Nat} (hnot : a ∉ rest) (hr : heap[a]? = some r) (hp : r.position = p) (hlt : p < 26)
    (h : RotateRotorsPtr heap (a :: rest) = some heap1) :
    heap1[a]? = some (Rotor.mk r.mapping r.notch (((p + 1) % 26 : Nat) : Int)) := by
  rw [rotateRotorsPtr_eq_loop] at h
  obtain ⟨heapA, f, h1, h2⟩ := rotateLoopPtr_cons_true h
  obtain ⟨r0, r1, hr0, hrot, rfl⟩ := rotatePtr_some h1
  rw [hr] at hr0
  simp only [Option.some.injEq] at hr0
  subst hr0
  rw [rotateLoopPtr_frame hnot h2, set_get_self hr]
  rw [rotate_of_pos r p hp hlt] at hrot
  cases hm : r.mapping[(p + 1) % 26]? with
  | none => simp [hm] at hrot
  | some c =>
    simp only [hm, Option.map_some', Option.some.injEq, Prod.mk.injEq] at hrot
    rw [hrot.1]

/-- Whenever the loop returns on a slice whose first pointer occurs in no
other slot and holds a rotor at a position in 0..25, that rotor has advanced
by the number of letters, modulo 26. -/
theorem encryptRunesPtr_head (runes : List Nat) {heap heap1 : Heap} {a : Nat}
    {rest : List Nat} {reflector : Reflector} {plugboard : Plugboard} {out : List Nat}
    {r : Rotor} {p : Nat} (hnot : a ∉ rest) (hr : heap[a]? = some r) (hp : r.position = p)
    (hlt : p < 26)
    (h : encryptRunesPtr runes heap (a :: rest) reflector plugboard = some (out, heap1)) :
    heap1[a]? = some (Rotor.mk r.mapping r.notch
      (((p + letterCount runes) % 26 : Nat) : Int)) := by
  induction runes generalizing heap r p out with
  | nil =>
    simp only [encryptRunesPtr, Option.some.injEq, Prod.mk.injEq] at h
    rw [← h.2, hr]
    have : (p + letterCount []) % 26 = p := by simp only [letterCount]; omega
    rw [this, ← hp, rotor_eta]
  | cons c cs ih =>
    obtain ⟨d, heapA, out2, hs, ht, -⟩ := encryptRunesPtr_cons_some h
    by_cases hc : isLetter c
    · obtain ⟨hrot, -⟩ := encryptStepPtr_letter_some hc hs
      have hA := rotateRotorsPtr_head hnot hr hp hlt hrot
      have hpA : (Rotor.mk r.mapping r.notch (((p + 1) % 26 : Nat) : Int)).position
          = (((p + 1) % 26 : Nat) : Int) := rfl
      rw [ih hA hpA (by omega) ht]
      unfold isLetter at hc
      have : ((p + 1) % 26 + letterCount cs) % 26 = (p + letterCount (c :: cs)) % 26 := by
        simp only [letterCount, if_pos hc]; omega
      rw [this]
    · rw [encryptStepPtr_other hc] at hs
      simp only [Option.some.injEq, Prod.mk.injEq] at hs
      rw [← hs.2] at ht
      rw [ih hr hp hlt ht]
      unfold isLetter at hc
      have : letterCount (c :: cs) = letterCount cs := by
        simp only [letterCount, if_neg hc]; omega
      rw [this]

/-! ### The first two rotors of a slice of pointers -/

/-- A step of `RotateRotors` on a slice whose first two pointers occur in no
other slot, when it returns: the second rotor advances exactly when the first
one reaches the index of its notch letter in its wiring. -/
theorem rotateRotorsPtr_pair {heap heap1 : Heap} {a0 a1 : Nat} {rest : List Nat}
    {r0 r1 : Rotor} {p q t : Nat} (h01 : a0 ≠ a1) (h0 : a0 ∉ rest) (h1 : a1 ∉ rest)
    (hr0 : heap[a0]? = some r0) (hr1 : heap[a1]? = some r1)
    (hp : r0.position = p) (hlt : p < 26) (hq : r1.position = q) (hqlt : q < 26)
    (ht : ∀ i, r0.mapping[i]? = some r0.notch ↔ i = t)
    (h : RotateRotorsPtr heap (a0 :: a1 :: rest) = some heap1) :
    heap1[a0]? = some (Rotor.mk r0.mapping r0.notch (((p + 1) % 26 : Nat) : Int))
    ∧ heap1[a1]? = some (Rotor.mk r1.mapping r1.notch
        (((if (p + 1) % 26 = t then (q + 1) % 26 else q : Nat) : Nat) : Int)) := by
  have hnot : a0 ∉ a1 :: rest := by
    intro hm
    rcases List.mem_cons.mp hm with e | hm
    · exact h01 e
    · exact h0 hm
  refine ⟨rotateRotorsPtr_head hnot hr0 hp hlt h, ?_⟩
  rw [rotateRotorsPtr_eq_loop] at h
  obtain ⟨heapA, f, hA, hloop⟩ := rotateLoopPtr_cons_true h
  obtain ⟨x, x1, hx, hrotx, rfl⟩ := rotatePtr_some hA
  rw [hr0] at hx
  simp only [Option.some.injEq] at hx
  subst hx
  rw [rotate_of_pos r0 p hp hlt] at hrotx
  cases hm : r0.mapping[(p + 1) % 26]? with
  | none => simp [hm] at hrotx
  | some c =>
    simp only [hm, Option.map_some', Option.some.injEq, Prod.mk.injEq] at hrotx
    obtain ⟨-, hf⟩ := hrotx
    have hA1 : (heap.set a0 x1)[a1]? = some r1 := by
      rw [set_get_other heap h01]; exact hr1
    by_cases hc : (p + 1) % 26 = t
    · have hcn : c = r0.notch := by
        have := (ht _).mpr hc
        rw [hm] at this
        exact Option.some.inj this
      have hft : f = true := by rw [← hf]; exact decide_eq_true hcn
      rw [hft] at hloop
      obtain ⟨heapB, f2, hB, hloop2⟩ := rotateLoopPtr_cons_true hloop
      obtain ⟨y, y1, hy, hroty, rfl⟩ := rotatePtr_some hB
      rw [hA1] at hy
      simp only [Option.some.injEq] at hy
      subst hy
      rw [rotateLoopPtr_frame h1 hloop2, set_get_self hA1, if_pos hc]
      rw [rotate_of_pos r1 q hq hqlt] at hroty
      cases hm1 : r1.mapping[(q + 1) % 26]? with
      | none => simp [hm1] at hroty
      | some c1 =>
        simp only [hm1, Option.map_some', Option.some.injEq, Prod.mk.injEq] at hroty
        rw [hroty.1]
    · have hcn : c ≠ r0.notch := by
        intro e
        apply hc
        apply (ht _).mp
        rw [hm, e]
      have hff : f = false := by rw [← hf]; exact decide_eq_false hcn
      rw [hff] at hloop
      simp only [rotateLoopPtr, Option.some.injEq] at hloop
      rw [← hloop, hA1, if_neg hc, ← hq, rotor_eta]

/-- Whenever the loop returns on a slice whose first two pointers occur in no
other slot, the first rotor has advanced by the number of letters and the
second by the number of carries, both modulo 26. -/
theorem encryptRunesPtr_pair (runes : List Nat) {heap heap1 : Heap} {a0 a1 : Nat}
    {rest : List Nat} {reflector : Reflector} {plugboard : Plugboard} {out : List Nat}
    {r0 r1 : Rotor} {p q t : Nat} (h01 : a0 ≠ a1) (h0 : a0 ∉ rest) (h1 : a1 ∉ rest)
    (htl : t < 26) (hr0 : heap[a0]? = some r0) (hr1 : heap[a1]? = some r1)
    (hp : r0.position = p) (hlt : p < 26) (hq : r1.position = q) (hqlt : q < 26)
    (ht : ∀ i, r0.mapping[i]? = some r0.notch ↔ i = t)
    (h : encryptRunesPtr runes heap (a0 :: a1 :: rest) reflector plugboard
      = some (out, heap1)) :
    heap1[a0]? = some (Rotor.mk r0.mapping r0.notch
        (((p + letterCount runes) % 26 : Nat) : Int))
    ∧ heap1[a1]? = some (Rotor.mk r1.mapping r1.notch
        (((q + (letterCount runes + 25 - (t + 25 - p) % 26) / 26) % 26 : Nat) : Int)) := by
  induction runes generalizing heap r0 r1 p q out with
  | nil =>
    simp only [encryptRunesPtr, Option.some.injEq, Prod.mk.injEq] at h
    rw [← h.2, hr0, hr1]
    have e1 : (p + letterCount []) % 26 = p := by simp only [letterCount]; omega
    have e2 : (q + (letterCount [] + 25 - (t + 25 - p) % 26) / 26) % 26 = q := by
      simp only [letterCount]; omega
    rw [e1, e2, ← hp, ← hq, rotor_eta, rotor_eta]
    exact ⟨rfl, rfl⟩
  | cons c cs ih =>
    obtain ⟨d, heapA, out2, hs, htail, -⟩ := encryptRunesPtr_cons_some h
    by_cases hc : isLetter c
    · obtain ⟨hrot, -⟩ := encryptStepPtr_letter_some hc hs
      obtain ⟨hA0, hA1⟩ := rotateRotorsPtr_pair h01 h0 h1 hr0 hr1 hp hlt hq hqlt ht hrot
      have hq2 : (if (p + 1) % 26 = t then (q + 1) % 26 else q) < 26 := by
        split_ifs <;> omega
      have hpA : (Rotor.mk r0.mapping r0.notch (((p + 1) % 26 : Nat) : Int)).position
          = (((p + 1) % 26 : Nat) : Int) := rfl
      have hqA : (Rotor.mk r1.mapping r1.notch
          (((if (p + 1) % 26 = t then (q + 1) % 26 else q : Nat) : Nat) : Int)).position
          = (((if (p + 1) % 26 = t then (q + 1) % 26 else q : Nat) : Nat) : Int) := rfl
      obtain ⟨hB0, hB1⟩ := ih hA0 hA1 hpA (by omega) hqA hq2 ht htail
      unfold isLetter at hc
      have e0 : letterCount (c :: cs) = letterCount cs + 1 := by
        simp only [letterCount, if_pos hc]; omega
      have e1 : ((p + 1) % 26 + letterCount cs) % 26 = (p + letterCount (c :: cs)) % 26 := by
        rw [e0]; omega
      have e2 := carry_arith p q t (letterCount cs) hlt htl
      rw [hB0, hB1, e1, e2, e0]
      exact ⟨rfl, rfl⟩
    · rw [encryptStepPtr_other hc] at hs
      simp only [Option.some.injEq, Prod.mk.injEq] at hs
      rw [← hs.2] at htail
      obtain ⟨hB0, hB1⟩ := ih hr0 hr1 hp hlt hq hqlt ht htail
      unfold isLetter at hc
      have : letterCount (c :: cs) = letterCount cs := by
        simp only [letterCount, if_neg hc]; omega
      rw [hB0, hB1, this]
      exact ⟨rfl, rfl⟩

/-! ### Slices of pairwise distinct pointers and lists of rotors -/

/-- On a slice of pairwise distinct pointers `RotateRotors` does to the memory
what `RotateRotors` on the list of the rotors pointed to computes, panics
included, and leaves the rest of the memory alone. -/
theorem rotateRotorsPtr_distinct {heap : Heap} {ptrs : List Nat} {rotors : List Rotor}
    (hnd : ptrs.Nodup) (hd : deref heap ptrs = some rotors) :
    (RotateRotors rotors = none → RotateRotorsPtr heap ptrs = none)
    ∧ (∀ rotors1, RotateRotors rotors = some rotors1 →
        ∃ heap1, RotateRotorsPtr heap ptrs = some heap1
          ∧ deref heap1 ptrs = some rotors1 ∧ ∀ b, b ∉ ptrs → heap1[b]? = heap[b]?) := by
  cases ptrs with
  | nil =>
    simp only [deref, Option.some.injEq] at hd
    subst hd
    exact ⟨fun _ => rfl, fun rotors1 h => by simp [RotateRotors] at h⟩
  | cons a rest =>
    obtain ⟨r, rs, -, -, rfl⟩ := deref_cons_some hd
    rw [rotateRotors_eq_loop, rotateRotorsPtr_eq_loop]
    exact rotateLoopPtr_distinct hnd hd true

/-- On a slice of pairwise distinct pointers the message loop returns the
characters, and leaves in memory the rotors, that the loop on the list of the
rotors pointed to computes, panics included. -/
theorem encryptRunesPtr_distinct {ptrs : List Nat} (hnd : ptrs.Nodup) (reflector : Reflector)
    (plugboard : Plugboard) (runes : List Nat) {heap : Heap} {rotors : List Rotor}
    (hd : deref heap ptrs = some rotors) :
    (encryptRunes runes rotors reflector plugboard = none →
        encryptRunesPtr runes heap ptrs reflector plugboard = none)
    ∧ (∀ out rotors1, encryptRunes runes rotors reflector plugboard = some (out, rotors1) →
        ∃ heap1, encryptRunesPtr runes heap ptrs reflector plugboard = some (out, heap1)
          ∧ deref heap1 ptrs = some rotors1 ∧ ∀ b, b ∉ ptrs → heap1[b]? = heap[b]?) := by
  induction runes generalizing heap rotors with
  | nil =>
    constructor
    · intro h; simp [encryptRunes] at h
    · intro out rotors1 h
      simp only [encryptRunes, Option.some.injEq, Prod.mk.injEq] at h
      obtain ⟨h1, h2⟩ := h
      subst h1 h2
      exact ⟨heap, rfl, hd, fun _ _ => rfl⟩
  | cons c cs ih =>
    by_cases hc : isLetter c
    · obtain ⟨hrn, hrs⟩ := rotateRotorsPtr_distinct hnd hd
      cases hrot : RotateRotors rotors with
      | none =>
        have hstep : encryptStepPtr c heap ptrs reflector plugboard = none := by
          rw [encryptStepPtr_letter hc, hrn hrot]
        constructor
        · intro _; simp only [encryptRunesPtr, hstep]
        · intro out rotors1 h
          simp [encryptRunes, encryptStep_letter hc, hrot] at h
      | some rotorsA =>
        obtain ⟨heapA, hA, hdA, hfrA⟩ := hrs rotorsA hrot
        cases hel : EncryptLetter c rotorsA reflector plugboard with
        | none =>
          have hstep : encryptStepPtr c heap ptrs reflector plugboard = none := by
            rw [encryptStepPtr_letter hc, hA]
            simp only [EncryptLetterPtr, hdA, hel]
          constructor
          · intro _; simp only [encryptRunesPtr, hstep]
          · intro out rotors1 h
            simp [encryptRunes, encryptStep_letter hc, hrot, hel] at h
        | some d =>
          have hstep : encryptStepPtr c heap ptrs reflector plugboard = some (d, heapA) := by
            rw [encryptStepPtr_letter hc, hA]
            simp only [EncryptLetterPtr, hdA, hel]
          have hstepV : encryptStep c rotors reflector plugboard = some (d, rotorsA) := by
            rw [encryptStep_letter hc, hrot]
            simp only [hel]
          obtain ⟨ihn, ihs⟩ := ih hdA
          constructor
          · intro h
            have h2 : encryptRunes cs rotorsA reflector plugboard = none := by
              cases hl : encryptRunes cs rotorsA reflector plugboard with
              | none => rfl
              | some x => simp [encryptRunes, hstepV, hl] at h
            simp only [encryptRunesPtr, hstep, ihn h2]
          · intro out rotors1 h
            cases hl : encryptRunes cs rotorsA reflector plugboard with
            | none => simp [encryptRunes, hstepV, hl] at h
            | some x =>
              obtain ⟨out2, rotorsB⟩ := x
              simp only [encryptRunes, hstepV, hl, Option.some.injEq, Prod.mk.injEq] at h
              obtain ⟨h1, h2⟩ := h
              subst h1 h2
              obtain ⟨heap1, hp1, hd1, hfr1⟩ := ihs out2 rotorsB hl
              exact ⟨heap1, by simp only [encryptRunesPtr, hstep, hp1], hd1,
                fun b hb => by rw [hfr1 b hb, hfrA b hb]⟩
    · have hstepV := encryptStep_other hc rotors reflector plugboard
      have hstep := encryptStepPtr_other hc heap ptrs reflector plugboard
      obtain ⟨ihn, ihs⟩ := ih hd
      constructor
      · intro h
        have h2 : encryptRunes cs rotors reflector plugboard = none := by
          cases hl : encryptRunes cs rotors reflector plugboard with
          | none => rfl
          | some x => simp [encryptRunes, hstepV, hl] at h
        simp only [encryptRunesPtr, hstep, ihn h2]
      · intro out rotors1 h
        cases hl : encryptRunes cs rotors reflector plugboard with
        | none => simp [encryptRunes, hstepV, hl] at h
        | some x =>
          obtain ⟨out2, rotorsB⟩ := x
          simp only [encryptRunes, hstepV, hl, Option.some.injEq, Prod.mk.injEq] at h
          obtain ⟨h1, h2⟩ := h
          subst h1 h2
          obtain ⟨heap1, hp1, hd1, hfr1⟩ := ihs out2 rotorsB hl
          exact ⟨heap1, by simp only [encryptRunesPtr, hstep, hp1], hd1, hfr1⟩

/-- `EncryptMessage` on a slice of pairwise distinct pointers is
`EncryptMessage` on the list of the rotors pointed to: the same panics, the
same returned string, and the rotors left in memory are the rotors returned. -/
theorem EncryptMessagePtr_distinct {ptrs : List Nat} (hnd : ptrs.Nodup) (reflector : Reflector)
    (plugboard : Plugboard) (message : List Nat) {heap : Heap} {rotors : List Rotor}
    (hd : deref heap ptrs = some rotors) :
    (EncryptMessage message rotors reflector plugboard = none →
        EncryptMessagePtr message heap ptrs reflector plugboard = none)
    ∧ (∀ out rotors1, EncryptMessage message rotors reflector plugboard = some (out, rotors1) →
        ∃ heap1, EncryptMessagePtr message heap ptrs reflector plugboard = some (out, heap1)
          ∧ deref heap1 ptrs = some rotors1 ∧ ∀ b, b ∉ ptrs → heap1[b]? = heap[b]?) := by
  obtain ⟨hn, hs⟩ := encryptRunesPtr_distinct hnd reflector plugboard (decodeRunes message) hd
  constructor
  · intro h
    have h2 : encryptRunes (decodeRunes message) rotors reflector plugboard = none := by
      cases hl : encryptRunes (decodeRunes message) rotors reflector plugboard with
      | none => rfl
      | some x => simp [EncryptMessage, hl] at h
    simp only [EncryptMessagePtr, hn h2]
  · intro out rotors1 h
    obtain ⟨outRunes, hrun, rfl⟩ := EncryptMessage_some h
    obtain ⟨heap1, h1, hd1, hfr⟩ := hs outRunes rotors1 hrun
    exact ⟨heap1, EncryptMessagePtr_of_runes h1, hd1, hfr⟩

/-! ## The claims -/

/-- C1, as amended. End-to-end reciprocity of `EncryptMessage`: on a valid
configuration (at least one rotor, every wiring a permutation of 'A'..'Z',
every position in 0..25, reflector a fixed-point-free involution on the 26
letters, plugboard an involution on letters) and for every input string that
is well-formed UTF-8, `EncryptMessage` returns, and run on its output from the
same initial rotors it returns the input exactly, with the rotors of the first
run. -/
theorem EncryptMessage_reciprocity (message : List Nat) (rotors : List Rotor)
    (reflector : Reflector) (plugboard : Plugboard) (hne : rotors ≠ [])
    (hr : ∀ r ∈ rotors, ValidRotor r) (hrefl : ReflectorInvolution reflector)
    (_hfpf : ReflectorFixedPointFree reflector) (hplug : PlugboardInvolution plugboard)
    (hutf : WellFormedUTF8 message) :
    ∃ out rotors1, EncryptMessage message rotors reflector plugboard = some (out, rotors1)
      ∧ EncryptMessage out rotors reflector plugboard = some (message, rotors1) := by
  obtain ⟨runes, hs, rfl⟩ := hutf
  obtain ⟨out, rotors1, h1, h2, hrel, -⟩ := encryptRunes_valid hrefl hplug runes hne hr
  have hso := scalar_of_rel hrel hs
  refine ⟨encodeRunes out, rotors1, ?_, ?_⟩
  · apply EncryptMessage_of_runes
    rw [decodeRunes_encodeRunes hs]; exact h1
  · apply EncryptMessage_of_runes
    rw [decodeRunes_encodeRunes hso]; exact h2

set_option maxRecDepth 100000 in
/-- C1, witness: the machine of `main` from (A,A,A) on "HELLO WORLD" and on "A". -/
theorem EncryptMessage_reciprocity_witness :
    (presetRotors ≠ [] ∧ (∀ r ∈ presetRotors, ValidRotor r)
      ∧ ReflectorInvolution presetReflector ∧ ReflectorFixedPointFree presetReflector
      ∧ PlugboardInvolution presetPlugboard)
    ∧ (∃ out rotors1,
        EncryptMessage [72, 69, 76, 76, 79, 32, 87, 79, 82, 76, 68] presetRotors
          presetReflector presetPlugboard = some (out, rotors1)
        ∧ EncryptMessage out presetRotors presetReflector presetPlugboard
          = some ([72, 69, 76, 76, 79, 32, 87, 79, 82, 76, 68], rotors1))
    ∧ (∃ out rotors1,
        EncryptMessage [65] presetRotors presetReflector presetPlugboard = some (out, rotors1)
        ∧ EncryptMessage out presetRotors presetReflector presetPlugboard
          = some ([65], rotors1)) :=
  ⟨by decide,
    EncryptMessage_reciprocity _ _ _ _ (by decide) (by decide) (by decide) (by decide)
      (by decide) ⟨[72, 69, 76, 76, 79, 32, 87, 79, 82, 76, 68], by decide, by decide⟩,
    EncryptMessage_reciprocity _ _ _ _ (by decide) (by decide) (by decide) (by decide)
      (by decide) ⟨[65], by decide, by decide⟩⟩

set_option maxRecDepth 100000 in
/-- C1, counterexample. The string made of the single byte 0xFF is not
well-formed UTF-8: `range` reads it as U+FFFD, the machine of `main` returns
the three bytes EF BF BD, and running these again returns them again, not the
input. -/
theorem EncryptMessage_reciprocity_fails_ill_formed :
    (presetRotors ≠ [] ∧ (∀ r ∈ presetRotors, ValidRotor r)
      ∧ ReflectorInvolution presetReflector ∧ ReflectorFixedPointFree presetReflector
      ∧ PlugboardInvolution presetPlugboard)
    ∧ EncryptMessage [255] presetRotors presetReflector presetPlugboard
        = some ([239, 191, 189], presetRotors)
    ∧ ¬ ∃ out rotors1 rotors2,
        EncryptMessage [255] presetRotors presetReflector presetPlugboard = some (out, rotors1)
        ∧ EncryptMessage out presetRotors presetReflector presetPlugboard
          = some ([255], rotors2) := by
  have e1 : EncryptMessage [255] presetRotors presetReflector presetPlugboard
      = some ([239, 191, 189], presetRotors) := by decide
  have e2 : EncryptMessage [239, 191, 189] presetRotors presetReflector presetPlugboard
      = some ([239, 191, 189], presetRotors) := by decide
  refine ⟨by decide, e1, ?_⟩
  rintro ⟨out, rotors1, rotors2, h1, h2⟩
  rw [e1] at h1
  simp only [Option.some.injEq, Prod.mk.injEq] at h1
  rw [← h1.1, e2] at h2
  simp at h2

/-- C2. Involution at fixed positions: for rotors whose wirings are
permutations of 'A'..'Z' and whose positions are in 0..25, a reflector that is
an involution on the 26 letters and a plugboard that is an involution on
letters, `EncryptLetter` returns on every letter x, and applied to its result
with the same rotor positions it returns x. -/
theorem EncryptLetter_involution (rotors : List Rotor) (reflector : Reflector)
    (plugboard : Plugboard) (x : Nat) (hr : ∀ r ∈ rotors, ValidRotor r)
    (hrefl : ReflectorInvolution reflector) (hplug : PlugboardInvolution plugboard)
    (hx : isLetter x) :
    ∃ y, EncryptLetter x rotors reflector plugboard = some y
      ∧ EncryptLetter y rotors reflector plugboard = some x := by
  obtain ⟨y, h1, -, h2, -⟩ := encryptLetter_valid hr hrefl hplug hx
  exact ⟨y, h1, h2⟩

set_option maxRecDepth 100000 in
/-- C2, witness: the machine of `main` at positions (A,A,A) on the letter H. -/
theorem EncryptLetter_involution_witness :
    ((∀ r ∈ presetRotors, ValidRotor r) ∧ ReflectorInvolution presetReflector
      ∧ PlugboardInvolution presetPlugboard ∧ isLetter 72)
    ∧ ∃ y, EncryptLetter 72 presetRotors presetReflector presetPlugboard = some y
      ∧ EncryptLetter y presetRotors presetReflector presetPlugboard = some 72 :=
  ⟨by decide,
    EncryptLetter_involution presetRotors presetReflector presetPlugboard 72 (by decide)
      (by decide) (by decide) (by decide)⟩

/-- C3. No fixed points: for rotors whose wirings are permutations of
'A'..'Z' and whose positions are in 0..25, a reflector that is a
fixed-point-free involution and a plugboard that is an involution, at every
rotor state reachable by calls of `RotateRotors` and for every letter x,
`EncryptLetter` returns a letter different from x. -/
theorem EncryptLetter_no_fixed_point (rotors0 rotors : List Rotor) (reflector : Reflector)
    (plugboard : Plugboard) (x : Nat) (hr : ∀ r ∈ rotors0, ValidRotor r)
    (hrefl : ReflectorInvolution reflector) (hfpf : ReflectorFixedPointFree reflector)
    (hplug : PlugboardInvolution plugboard) (hreach : Reachable rotors0 rotors)
    (hx : isLetter x) :
    ∃ y, EncryptLetter x rotors reflector plugboard = some y ∧ y ≠ x := by
  obtain ⟨y, h1, -, -, h2⟩ :=
    encryptLetter_valid (reachable_valid hreach hr) hrefl hplug hx
  exact ⟨y, h1, h2 hfpf⟩

set_option maxRecDepth 100000 in
/-- C3, witness: the machine of `main` after one call of `RotateRotors` from
(A,A,A), on the letter A. -/
theorem EncryptLetter_no_fixed_point_witness :
    ((∀ r ∈ presetRotors, ValidRotor r) ∧ ReflectorInvolution presetReflector
      ∧ ReflectorFixedPointFree presetReflector ∧ PlugboardInvolution presetPlugboard
      ∧ RotateRotors presetRotors = some [Rotor.mk rotorI.mapping 81 1, rotorII, rotorIII]
      ∧ isLetter 65)
    ∧ ∃ y, EncryptLetter 65 [Rotor.mk rotorI.mapping 81 1, rotorII, rotorIII] presetReflector
        presetPlugboard = some y ∧ y ≠ 65 :=
  ⟨by decide,
    EncryptLetter_no_fixed_point presetRotors [Rotor.mk rotorI.mapping 81 1, rotorII, rotorIII]
      presetReflector presetPlugboard 65 (by decide) (by decide) (by decide) (by decide)
      (Reachable.step Reachable.start (by decide)) (by decide)⟩

/-- C4. Rotor inverse: for every rotor whose wiring is a permutation of
'A'..'Z' and whose position is in 0..25, and every letter x,
`TransformForward` returns on x a letter that `TransformBackward` sends back to
x, and `TransformForward` returns x on `TransformBackward` of x. -/
theorem Rotor_forward_backward_inverse (r : Rotor) (x : Nat) (hr : ValidRotor r)
    (hx : isLetter x) :
    (∃ y, r.TransformForward x = some y ∧ r.TransformBackward y = x)
      ∧ r.TransformForward (r.TransformBackward x) = some x := by
  obtain ⟨y, h1, -, h2⟩ := forward_backward hr hx
  exact ⟨⟨y, h1, h2⟩, (backward_forward hr hx).2⟩

set_option maxRecDepth 100000 in
/-- C4, witness: rotor I of `main` at position 3 on the letter K. -/
theorem Rotor_forward_backward_inverse_witness :
    (ValidRotor (Rotor.mk rotorI.mapping 81 3) ∧ isLetter 75)
    ∧ (∃ y, (Rotor.mk rotorI.mapping 81 3).TransformForward 75 = some y
        ∧ (Rotor.mk rotorI.mapping 81 3).TransformBackward y = 75)
    ∧ (Rotor.mk rotorI.mapping 81 3).TransformForward
        ((Rotor.mk rotorI.mapping 81 3).TransformBackward 75) = some 75 :=
  ⟨by decide, Rotor_forward_backward_inverse (Rotor.mk rotorI.mapping 81 3) 75 (by decide)
    (by decide)⟩

/-- C5, as amended. Pass-through in `EncryptMessage`, for every input string
and every configuration (the values of the plugboard map being bytes).  The
call returns whenever the input has no character in 'A'..'Z', and whenever
there is at least one rotor, every wiring and the reflector have at least 26
bytes and every position is in 0..25.  Whenever it returns: each input
character that is not in 'A'..'Z' stands unchanged at the same position in the
output; the rotors are left as by the letters of the input alone; and an input
without a character in 'A'..'Z' leaves all rotors unchanged and, when it is
well-formed UTF-8, is returned unchanged.  A loop iteration on a character
that is not in 'A'..'Z' appends it and does not touch the rotors. -/
theorem EncryptMessage_pass_through (message : List Nat) (rotors : List Rotor)
    (reflector : Reflector) (plugboard : Plugboard) (hb : ∀ kv ∈ plugboard, kv.2 < 256) :
    ((letterCount (decodeRunes message) = 0
        ∨ (rotors ≠ [] ∧ (∀ r ∈ rotors, WellFormedRotor r) ∧ 26 ≤ reflector.length)) →
      ∃ out rotors1, EncryptMessage message rotors reflector plugboard = some (out, rotors1))
    ∧ (∀ (out : List Nat) (rotors1 : List Rotor),
        EncryptMessage message rotors reflector plugboard = some (out, rotors1) →
        (∀ (i c : Nat), (decodeRunes message)[i]? = some c → ¬ isLetter c →
          (decodeRunes out)[i]? = some c)
        ∧ (∃ out1, encryptRunes ((decodeRunes message).filter (fun c => decide (isLetter c)))
            rotors reflector plugboard = some (out1, rotors1))
        ∧ (letterCount (decodeRunes message) = 0 →
            rotors1 = rotors ∧ (WellFormedUTF8 message → out = message)))
    ∧ (∀ c, ¬ isLetter c → encryptStep c rotors reflector plugboard = some (c, rotors)) := by
  refine ⟨?_, ?_, fun c hc => encryptStep_other hc _ _ _⟩
  · rintro (h0 | ⟨hne, hr, hrefl⟩)
    · exact ⟨_, _, EncryptMessage_of_runes (encryptRunes_noLetter _ rotors reflector plugboard h0)⟩
    · cases rotors with
      | nil => exact absurd rfl hne
      | cons r rest =>
        obtain ⟨out, r1, rest1, h1, -, -⟩ :=
          encryptRunes_wellFormed plugboard hrefl (decodeRunes message) hr
        exact ⟨_, _, EncryptMessage_of_runes h1⟩
  · intro out rotors1 h
    obtain ⟨outRunes, hrun, rfl⟩ := EncryptMessage_some h
    have hs := decodeFrom_scalar message 0
    have hso := encryptRunes_scalar hb (decodeRunes message) hs hrun
    rw [decodeRunes_encodeRunes hso]
    refine ⟨?_, encryptRunes_filter _ hrun, ?_⟩
    · intro i c hic hc
      obtain ⟨d, hd, hcd⟩ := forall2_getElem (encryptRunes_passThrough _ _ _ _ hrun) hic
      rw [hd, hcd hc]
    · intro h0
      rw [encryptRunes_noLetter _ rotors reflector plugboard h0] at hrun
      simp only [Option.some.injEq, Prod.mk.injEq] at hrun
      refine ⟨hrun.2.symm, ?_⟩
      rintro ⟨runes, hsr, rfl⟩
      rw [← hrun.1, decodeRunes_encodeRunes hsr]

set_option maxRecDepth 100000 in
/-- C5, witness: the input "hello" on the machine of `main`; it has no
character in 'A'..'Z', it is returned unchanged and the rotors stay at (A,A,A). -/
theorem EncryptMessage_pass_through_witness :
    (∀ kv ∈ presetPlugboard, kv.2 < 256)
    ∧ letterCount (decodeRunes [104, 101, 108, 108, 111]) = 0
    ∧ WellFormedUTF8 [104, 101, 108, 108, 111]
    ∧ ∃ out rotors1,
        EncryptMessage [104, 101, 108, 108, 111] presetRotors presetReflector presetPlugboard
          = some (out, rotors1)
        ∧ rotors1 = presetRotors ∧ out = [104, 101, 108, 108, 111] := by
  have hb : ∀ kv ∈ presetPlugboard, kv.2 < 256 := by decide
  have h0 : letterCount (decodeRunes [104, 101, 108, 108, 111]) = 0 := by decide
  have hu : WellFormedUTF8 [104, 101, 108, 108, 111] :=
    ⟨[104, 101, 108, 108, 111], by decide, by decide⟩
  have key := EncryptMessage_pass_through [104, 101, 108, 108, 111] presetRotors
    presetReflector presetPlugboard hb
  obtain ⟨out, rotors1, h⟩ := key.1 (Or.inl h0)
  obtain ⟨-, -, h3⟩ := key.2.1 out rotors1 h
  exact ⟨hb, h0, hu, out, rotors1, h, (h3 h0).1, (h3 h0).2 hu⟩

set_option maxRecDepth 100000 in
/-- C5, counterexample. The input made of the single byte 0xFF has no
character in 'A'..'Z', and the machine of `main` returns the three bytes
EF BF BD instead of the input; and on an empty rotor list the input " A"
makes `RotateRotors` index `rotors[0]`, so that no output is returned in which
the space could appear. -/
theorem EncryptMessage_pass_through_fails :
    letterCount (decodeRunes [255]) = 0
    ∧ EncryptMessage [255] presetRotors presetReflector presetPlugboard
        = some ([239, 191, 189], presetRotors)
    ∧ (¬ ∃ rotors1, EncryptMessage [255] presetRotors presetReflector presetPlugboard
        = some ([255], rotors1))
    ∧ EncryptMessage [32, 65] [] presetReflector presetPlugboard = none := by
  have e1 : EncryptMessage [255] presetRotors presetReflector presetPlugboard
      = some ([239, 191, 189], presetRotors) := by decide
  refine ⟨by decide, e1, ?_, by decide⟩
  rintro ⟨rotors1, h⟩
  rw [e1] at h
  simp at h

set_option maxRecDepth 100000 in
/-- C6, the code at the failing inputs. `Rotate` compares the wiring letter
at the new position, `mapping[position]`, with the notch, not the new position
read as a letter.  Rotor I of `main` (notch 'Q') stepped from position 15 to
16, which is the letter 'Q', returns false, because its wiring has 'X' at
index 16; stepped from 6 to 7, the letter 'H', it returns true, because its
wiring has 'Q' at index 7. -/
theorem Rotate_flag_compares_wiring_letter :
    (Rotor.mk rotorI.mapping 81 15).Rotate = some (Rotor.mk rotorI.mapping 81 16, false)
    ∧ (65 : Int) + 16 = 81
    ∧ (Rotor.mk rotorI.mapping 81 6).Rotate = some (Rotor.mk rotorI.mapping 81 7, true)
    ∧ (65 : Int) + 7 ≠ 81
    ∧ rotorI.mapping[16]? = some 88 ∧ rotorI.mapping[7]? = some 81 := by
  decide

/-- C7, as amended. Fastest-rotor odometer count: for every configuration
with at least one rotor, whose rotor at index 0 occurs in no other slot of the
rotor slice and starts at a position p in 0..25, and every input string
containing exactly k characters in 'A'..'Z': whenever `EncryptMessage`
returns, the rotor at index 0 has position (p + k) mod 26.  The call returns
when every pointer of the slice holds a rotor with a wiring of at least 26
bytes and a position in 0..25 and the reflector has at least 26 bytes. -/
theorem EncryptMessagePtr_fastest_rotor_count (message : List Nat) (heap : Heap) (a : Nat)
    (rest : List Nat) (reflector : Reflector) (plugboard : Plugboard) (r : Rotor)
    (hnot : a ∉ rest) (hr : heap[a]? = some r) (hp0 : 0 ≤ r.position)
    (hp1 : r.position < 26) :
    (((∀ b ∈ a :: rest, cellWellFormed heap b) ∧ 26 ≤ reflector.length) →
      ∃ out heap1,
        EncryptMessagePtr message heap (a :: rest) reflector plugboard = some (out, heap1))
    ∧ ∀ (out : List Nat) (heap1 : Heap),
        EncryptMessagePtr message heap (a :: rest) reflector plugboard = some (out, heap1) →
        ∃ r1, heap1[a]? = some r1
          ∧ r1.position = (r.position + letterCount (decodeRunes message)) % 26 := by
  constructor
  · rintro ⟨hwf, hrefl⟩
    obtain ⟨out, heap1, h⟩ := encryptRunesPtr_total plugboard (List.cons_ne_nil a rest) hrefl
      (decodeRunes message) hwf
    exact ⟨_, _, EncryptMessagePtr_of_runes h⟩
  · intro out heap1 h
    obtain ⟨outRunes, hrun, -⟩ := EncryptMessagePtr_some h
    obtain ⟨p, hp⟩ := Int.eq_ofNat_of_zero_le hp0
    have hlt : p < 26 := by omega
    refine ⟨_, encryptRunesPtr_head _ hnot hr hp hlt hrun, ?_⟩
    show (((p + letterCount (decodeRunes message)) % 26 : Nat) : Int)
      = (r.position + letterCount (decodeRunes message)) % 26
    rw [hp]; omega

set_option maxRecDepth 100000 in
/-- C7, witness: the machine of `main`, its three rotors in three slots, on
"HELLO WORLD", ten letters. -/
theorem EncryptMessagePtr_fastest_rotor_count_witness :
    ((0 : Nat) ∉ [1, 2] ∧ presetRotors[0]? = some rotorI ∧ 0 ≤ rotorI.position
      ∧ rotorI.position < 26
      ∧ letterCount (decodeRunes [72, 69, 76, 76, 79, 32, 87, 79, 82, 76, 68]) = 10)
    ∧ ∃ out heap1 r1,
        EncryptMessagePtr [72, 69, 76, 76, 79, 32, 87, 79, 82, 76, 68] presetRotors
          (0 :: [1, 2]) presetReflector presetPlugboard = some (out, heap1)
        ∧ heap1[0]? = some r1
        ∧ r1.position = (rotorI.position
            + letterCount (decodeRunes [72, 69, 76, 76, 79, 32, 87, 79, 82, 76, 68])) % 26 := by
  have key := EncryptMessagePtr_fastest_rotor_count
    [72, 69, 76, 76, 79, 32, 87, 79, 82, 76, 68] presetRotors 0 [1, 2] presetReflector
    presetPlugboard rotorI (by decide) (by decide) (by decide) (by decide)
  have hwf : ∀ b ∈ (0 : Nat) :: [1, 2], cellWellFormed presetRotors b := by
    intro b hb
    simp only [List.mem_cons, List.mem_singleton, List.not_mem_nil, or_false] at hb
    rcases hb with rfl | rfl | rfl
    · exact ⟨rotorI, by decide, by decide⟩
    · exact ⟨rotorII, by decide, by decide⟩
    · exact ⟨rotorIII, by decide, by decide⟩
  obtain ⟨out, heap1, h⟩ := key.1 ⟨hwf, by decide⟩
  obtain ⟨r1, h1, h2⟩ := key.2 out heap1 h
  exact ⟨by decide, out, heap1, r1, h, h1, h2⟩

set_option maxRecDepth 100000 in
/-- C7, counterexample. With rotor I of `main` at position 6 in both slots of
a two-rotor slice, the input "A" has one character in 'A'..'Z': `RotateRotors`
steps the rotor to 7, its wiring has the notch letter at index 7, so the same
rotor is stepped again through slot 1; the call returns "H" and leaves the
rotor at index 0 at position 8, not (6 + 1) mod 26.  And with the rotors of
`main` in three slots and an empty reflector string the input "AA" makes the
call panic after one step, so that the rotor at index 0 never reaches
position 2. -/
theorem EncryptMessagePtr_fastest_rotor_count_fails :
    (letterCount (decodeRunes [65]) = 1
      ∧ EncryptMessagePtr [65] [Rotor.mk rotorI.mapping 81 6] [0, 0] presetReflector
          presetPlugboard = some ([72], [Rotor.mk rotorI.mapping 81 8])
      ∧ (8 : Int) ≠ (6 + 1) % 26)
    ∧ (letterCount (decodeRunes [65, 65]) = 2
      ∧ EncryptMessagePtr [65, 65] presetRotors [0, 1, 2] [] presetPlugboard = none) := by
  decide

/-- C8, as amended. One carry per full sweep: for every machine with at
least two rotors, whose rotors at index 0 and at index 1 each occur in no
other slot of the rotor slice and start at positions in 0..25, and whose
fastest rotor has a wiring that is a permutation of 'A'..'Z' and a notch in
'A'..'Z': whenever `EncryptMessage` returns on an input with exactly 26
characters in 'A'..'Z', the fastest rotor is at its starting position and the
second rotor has advanced by exactly one position modulo 26.  The call returns
when every pointer of the slice holds a rotor with a wiring of at least 26
bytes and a position in 0..25 and the reflector has at least 26 bytes. -/
theorem EncryptMessagePtr_one_carry_per_sweep (message : List Nat) (heap : Heap) (a0 a1 : Nat)
    (rest : List Nat) (reflector : Reflector) (plugboard : Plugboard) (r0 r1 : Rotor)
    (h01 : a0 ≠ a1) (h0 : a0 ∉ rest) (h1 : a1 ∉ rest)
    (hr0 : heap[a0]? = some r0) (hr1 : heap[a1]? = some r1)
    (hperm : List.Perm r0.mapping alphabet) (hnotch : isLetter r0.notch)
    (hp : 0 ≤ r0.position ∧ r0.position < 26) (hq : 0 ≤ r1.position ∧ r1.position < 26)
    (hk : letterCount (decodeRunes message) = 26) :
    (((∀ b ∈ a0 :: a1 :: rest, cellWellFormed heap b) ∧ 26 ≤ reflector.length) →
      ∃ out heap1,
        EncryptMessagePtr message heap (a0 :: a1 :: rest) reflector plugboard
          = some (out, heap1))
    ∧ ∀ (out : List Nat) (heap1 : Heap),
        EncryptMessagePtr message heap (a0 :: a1 :: rest) reflector plugboard
          = some (out, heap1) →
        ∃ s0 s1, heap1[a0]? = some s0 ∧ heap1[a1]? = some s1
          ∧ s0.position = r0.position ∧ s1.position = (r1.position + 1) % 26 := by
  constructor
  · rintro ⟨hwf, hrefl⟩
    obtain ⟨out, heap1, h⟩ := encryptRunesPtr_total plugboard (List.cons_ne_nil a0 (a1 :: rest))
      hrefl (decodeRunes message) hwf
    exact ⟨_, _, EncryptMessagePtr_of_runes h⟩
  · intro out heap1 h
    obtain ⟨outRunes, hrun, -⟩ := EncryptMessagePtr_some h
    obtain ⟨p, hpp⟩ := Int.eq_ofNat_of_zero_le hp.1
    obtain ⟨q, hqq⟩ := Int.eq_ofNat_of_zero_le hq.1
    have hplt : p < 26 := by omega
    have hqlt : q < 26 := by omega
    obtain ⟨t, htl, ht⟩ := notch_index hperm hnotch
    obtain ⟨hs0, hs1⟩ :=
      encryptRunesPtr_pair _ h01 h0 h1 htl hr0 hr1 hpp hplt hqq hqlt ht hrun
    refine ⟨_, _, hs0, hs1, ?_, ?_⟩
    · show (((p + letterCount (decodeRunes message)) % 26 : Nat) : Int) = r0.position
      rw [hk, hpp]; omega
    · show (((q + (letterCount (decodeRunes message) + 25 - (t + 25 - p) % 26) / 26) % 26
        : Nat) : Int) = (r1.position + 1) % 26
      rw [hk, hqq]; omega

set_option maxRecDepth 100000 in
/-- C8, witness: the rotors I, II, III of `main` (notches Q, E, V) in three
slots from (A,A,A) on the letter A repeated 26 times. -/
theorem EncryptMessagePtr_one_carry_per_sweep_witness :
    ((0 : Nat) ≠ 1 ∧ (0 : Nat) ∉ [2] ∧ (1 : Nat) ∉ [2] ∧ presetRotors[0]? = some rotorI
      ∧ presetRotors[1]? = some rotorII ∧ List.Perm rotorI.mapping alphabet
      ∧ isLetter rotorI.notch ∧ (0 ≤ rotorI.position ∧ rotorI.position < 26)
      ∧ (0 ≤ rotorII.position ∧ rotorII.position < 26)
      ∧ letterCount (decodeRunes (List.replicate 26 65)) = 26)
    ∧ ∃ out heap1 s0 s1,
        EncryptMessagePtr (List.replicate 26 65) presetRotors (0 :: 1 :: [2]) presetReflector
          presetPlugboard = some (out, heap1)
        ∧ heap1[0]? = some s0 ∧ heap1[1]? = some s1
        ∧ s0.position = rotorI.position ∧ s1.position = (rotorII.position + 1) % 26 := by
  have key := EncryptMessagePtr_one_carry_per_sweep (List.replicate 26 65) presetRotors 0 1 [2]
    presetReflector presetPlugboard rotorI rotorII (by decide) (by decide) (by decide)
    (by decide) (by decide) (by decide) (by decide) (by decide) (by decide) (by decide)
  have hwf : ∀ b ∈ (0 : Nat) :: 1 :: [2], cellWellFormed presetRotors b := by
    intro b hb
    simp only [List.mem_cons, List.mem_singleton, List.not_mem_nil, or_false] at hb
    rcases hb with rfl | rfl | rfl
    · exact ⟨rotorI, by decide, by decide⟩
    · exact ⟨rotorII, by decide, by decide⟩
    · exact ⟨rotorIII, by decide, by decide⟩
  obtain ⟨out, heap1, h⟩ := key.1 ⟨hwf, by decide⟩
  obtain ⟨s0, s1, h1, h2, h3, h4⟩ := key.2 out heap1 h
  exact ⟨by decide, out, heap1, s0, s1, h, h1, h2, h3, h4⟩

set_option maxRecDepth 100000 in
/-- C8, counterexample. With rotor I of `main` (a permutation wiring, notch
'Q') at position 0 in both slots of a two-rotor slice, the letter A repeated
26 times steps the rotor 27 times, once more through slot 1 when it carries:
the call returns and leaves the fastest rotor at position 1, not at its
starting position.  And with rotor I followed by a second rotor whose wiring
string is empty, both at position 0, the first `EncryptLetter` indexes the
empty wiring out of range, so the call panics with the fastest rotor at
position 1. -/
theorem EncryptMessagePtr_one_carry_per_sweep_fails :
    (List.Perm rotorI.mapping alphabet ∧ isLetter rotorI.notch
      ∧ letterCount (decodeRunes (List.replicate 26 65)) = 26)
    ∧ (∃ out, EncryptMessagePtr (List.replicate 26 65) [rotorI] [0, 0] presetReflector
          presetPlugboard = some (out, [Rotor.mk rotorI.mapping 81 1]))
    ∧ (1 : Int) ≠ rotorI.position
    ∧ EncryptMessagePtr (List.replicate 26 65) [rotorI, Rotor.mk [] 69 0] [0, 1]
        presetReflector presetPlugboard = none := by
  refine ⟨by decide, ⟨[89, 71, 71, 73, 76, 70, 72, 70, 86, 70, 83, 82, 66, 75, 77, 85, 89, 70,
    90, 88, 80, 87, 71, 75, 69, 89], by decide⟩, by decide, by decide⟩

/-- C9. No letter encrypts to itself in a stream: for every valid
configuration (at least one rotor, wirings permutations of 'A'..'Z', positions
in 0..25, reflector a fixed-point-free involution, plugboard an involution)
and every input string, `EncryptMessage` returns, and at every index where
the input character is in 'A'..'Z' the output has a character that differs
from it. -/
theorem EncryptMessage_no_letter_unchanged (message : List Nat) (rotors : List Rotor)
    (reflector : Reflector) (plugboard : Plugboard) (hne : rotors ≠ [])
    (hr : ∀ r ∈ rotors, ValidRotor r) (hrefl : ReflectorInvolution reflector)
    (hfpf : ReflectorFixedPointFree reflector) (hplug : PlugboardInvolution plugboard) :
    ∃ out rotors1, EncryptMessage message rotors reflector plugboard = some (out, rotors1)
      ∧ ∀ (i c : Nat), (decodeRunes message)[i]? = some c → isLetter c →
          ∃ d, (decodeRunes out)[i]? = some d ∧ d ≠ c := by
  obtain ⟨out, rotors1, h1, -, hrel, -⟩ :=
    encryptRunes_valid hrefl hplug (decodeRunes message) hne hr
  have hso := scalar_of_rel hrel (decodeFrom_scalar message 0)
  refine ⟨encodeRunes out, rotors1, EncryptMessage_of_runes h1, ?_⟩
  intro i c hic hc
  rw [decodeRunes_encodeRunes hso]
  obtain ⟨d, hd, hcd⟩ := forall2_getElem hrel hic
  exact ⟨d, hd, (hcd.1 hc).2 hfpf⟩

set_option maxRecDepth 100000 in
/-- C9, witness: the machine of `main` from (A,A,A) on "A" repeated 100
times and on "AAAAA". -/
theorem EncryptMessage_no_letter_unchanged_witness :
    (presetRotors ≠ [] ∧ (∀ r ∈ presetRotors, ValidRotor r)
      ∧ ReflectorInvolution presetReflector ∧ ReflectorFixedPointFree presetReflector
      ∧ PlugboardInvolution presetPlugboard)
    ∧ (∃ out rotors1,
        EncryptMessage (List.replicate 100 65) presetRotors presetReflector presetPlugboard
          = some (out, rotors1)
        ∧ ∀ (i c : Nat), (decodeRunes (List.replicate 100 65))[i]? = some c → isLetter c →
            ∃ d, (decodeRunes out)[i]? = some d ∧ d ≠ c)
    ∧ EncryptMessage [65, 65, 65, 65, 65] presetRotors presetReflector presetPlugboard
        = some ([84, 86, 90, 79, 79], [Rotor.mk rotorI.mapping 81 5, rotorII, rotorIII]) :=
  ⟨by decide,
    EncryptMessage_no_letter_unchanged (List.replicate 100 65) presetRotors presetReflector
      presetPlugboard (by decide) (by decide) (by decide) (by decide) (by decide),
    by decide⟩

/-- C10. Shape preservation: for every valid configuration (at least one
rotor, wirings permutations of 'A'..'Z', positions in 0..25, reflector an
involution on the 26 letters, plugboard an involution on letters) and every
input string, `EncryptMessage` returns a string with the same number of
characters as the input, and the output character at index i is in 'A'..'Z'
if and only if the input character at index i is. -/
theorem EncryptMessage_shape (message : List Nat) (rotors : List Rotor)
    (reflector : Reflector) (plugboard : Plugboard) (hne : rotors ≠ [])
    (hr : ∀ r ∈ rotors, ValidRotor r) (hrefl : ReflectorInvolution reflector)
    (hplug : PlugboardInvolution plugboard) :
    ∃ out rotors1, EncryptMessage message rotors reflector plugboard = some (out, rotors1)
      ∧ (decodeRunes out).length = (decodeRunes message).length
      ∧ ∀ (i c d : Nat), (decodeRunes message)[i]? = some c → (decodeRunes out)[i]? = some d →
          (isLetter d ↔ isLetter c) := by
  obtain ⟨out, rotors1, h1, -, hrel, -⟩ :=
    encryptRunes_valid hrefl hplug (decodeRunes message) hne hr
  have hso := scalar_of_rel hrel (decodeFrom_scalar message 0)
  refine ⟨encodeRunes out, rotors1, EncryptMessage_of_runes h1, ?_, ?_⟩
  · rw [decodeRunes_encodeRunes hso]; exact hrel.length_eq.symm
  · intro i c d hic hid
    rw [decodeRunes_encodeRunes hso] at hid
    obtain ⟨e, he, hce⟩ := forall2_getElem hrel hic
    rw [he] at hid
    simp only [Option.some.injEq] at hid
    subst hid
    constructor
    · intro hd
      by_contra hc
      rw [hce.2 hc] at hd
      exact hc hd
    · intro hc
      exact (hce.1 hc).1

set_option maxRecDepth 100000 in
/-- C10, witness: the machine of `main` from (A,A,A) on "HELLO WORLD". -/
theorem EncryptMessage_shape_witness :
    (presetRotors ≠ [] ∧ (∀ r ∈ presetRotors, ValidRotor r)
      ∧ ReflectorInvolution presetReflector ∧ PlugboardInvolution presetPlugboard)
    ∧ ∃ out rotors1,
        EncryptMessage [72, 69, 76, 76, 79, 32, 87, 79, 82, 76, 68] presetRotors
          presetReflector presetPlugboard = some (out, rotors1)
        ∧ (decodeRunes out).length
            = (decodeRunes [72, 69, 76, 76, 79, 32, 87, 79, 82, 76, 68]).length
        ∧ ∀ (i c d : Nat),
            (decodeRunes [72, 69, 76, 76, 79, 32, 87, 79, 82, 76, 68])[i]? = some c →
            (decodeRunes out)[i]? = some d → (isLetter d ↔ isLetter c) :=
  ⟨by decide,
    EncryptMessage_shape [72, 69, 76, 76, 79, 32, 87, 79, 82, 76, 68] presetRotors
      presetReflector presetPlugboard (by decide) (by decide) (by decide) (by decide)⟩

/-- C11, as amended. Malformed configurations are not rejected: the program
has no validation at construction.  For every configuration that is malformed
(a wiring that is not a permutation of the 26 letters, a reflector that is not
an involution or has a fixed point, or a plugboard with one direction of a
pair only) but has at least one rotor, wirings and a reflector of at least 26
bytes and positions in 0..25, `EncryptMessage` returns an encoded output for
every input string. -/
theorem EncryptMessage_malformed_not_rejected (message : List Nat) (rotors : List Rotor)
    (reflector : Reflector) (plugboard : Plugboard)
    (_hmal : Malformed rotors reflector plugboard) (hne : rotors ≠ [])
    (hr : ∀ r ∈ rotors, WellFormedRotor r) (hrefl : 26 ≤ reflector.length) :
    ∃ out rotors1, EncryptMessage message rotors reflector plugboard = some (out, rotors1) := by
  cases rotors with
  | nil => exact absurd rfl hne
  | cons r rest =>
    obtain ⟨out, r1, rest1, h1, -, -⟩ :=
      encryptRunes_wellFormed plugboard hrefl (decodeRunes message) hr
    exact ⟨_, _, EncryptMessage_of_runes h1⟩

set_option maxRecDepth 100000 in
/-- C11, witness: the rotors and reflector of `main` with a plugboard that
maps A to Z only, on the input "A". -/
theorem EncryptMessage_malformed_not_rejected_witness :
    (Malformed presetRotors presetReflector [(65, 90)] ∧ presetRotors ≠ []
      ∧ (∀ r ∈ presetRotors, WellFormedRotor r) ∧ 26 ≤ presetReflector.length)
    ∧ ∃ out rotors1,
        EncryptMessage [65] presetRotors presetReflector [(65, 90)] = some (out, rotors1) :=
  have hmal : Malformed presetRotors presetReflector [(65, 90)] :=
    Or.inr (Or.inr (Or.inr ⟨65, 90, by decide, by decide⟩))
  ⟨⟨hmal, by decide, by decide, by decide⟩,
    EncryptMessage_malformed_not_rejected [65] presetRotors presetReflector [(65, 90)] hmal
      (by decide) (by decide) (by decide)⟩

set_option maxRecDepth 100000 in
/-- C11, counterexample. The rotors and reflector of `main` with a plugboard
that maps A to Z but not Z to A: the configuration is malformed, no error is
reported, and the inputs "A" and "Z" are both encoded, to the same letter T. -/
theorem EncryptMessage_malformed_encodes :
    (List.lookup 65 [(65, 90)] = some 90 ∧ List.lookup 90 [(65, 90)] ≠ some 65)
    ∧ ¬ PlugboardInvolution [(65, 90)]
    ∧ EncryptMessage [65] presetRotors presetReflector [(65, 90)]
        = some ([84], [Rotor.mk rotorI.mapping 81 1, rotorII, rotorIII])
    ∧ EncryptMessage [90] presetRotors presetReflector [(65, 90)]
        = some ([84], [Rotor.mk rotorI.mapping 81 1, rotorII, rotorIII]) := by
  decide

/-- C12. Rotors are mutated only by stepping, for every configuration.
`RotateRotors`, and hence `EncryptMessage`, whenever they return, return the
same number of rotors, each with its wiring and notch unchanged, so that only
positions change; reflector and plugboard are only read.  `EncryptLetter` and
the two substitutions of a rotor assign no rotor field: in the loop the rotors
that `EncryptLetter` has worked on are exactly those that `RotateRotors` left.
The calls do return when there is at least one rotor, every wiring and the
reflector have at least 26 bytes and every position is in 0..25. -/
theorem rotors_mutated_only_by_stepping (rotors : List Rotor) (reflector : Reflector)
    (plugboard : Plugboard) :
    (∀ rotors1, RotateRotors rotors = some rotors1 →
        List.Forall₂ KeepsWiring rotors rotors1)
    ∧ (∀ message out rotors1,
        EncryptMessage message rotors reflector plugboard = some (out, rotors1) →
        List.Forall₂ KeepsWiring rotors rotors1)
    ∧ (∀ c d rotorsA, isLetter c →
        encryptStep c rotors reflector plugboard = some (d, rotorsA) →
        RotateRotors rotors = some rotorsA
          ∧ EncryptLetter c rotorsA reflector plugboard = some d)
    ∧ (rotors ≠ [] → (∀ r ∈ rotors, WellFormedRotor r) → 26 ≤ reflector.length →
        (∃ rotors1, RotateRotors rotors = some rotors1)
          ∧ ∀ message, ∃ out rotors1,
              EncryptMessage message rotors reflector plugboard = some (out, rotors1)) := by
  have hrefl : ∀ r : Rotor, True → KeepsWiring r r := fun r _ => ⟨rfl, rfl⟩
  have hrot : ∀ (r r1 : Rotor) (flag : Bool), True → r.Rotate = some (r1, flag) →
      KeepsWiring r r1 := fun r r1 flag _ h => rotate_keeps h
  have hq : ∀ r ∈ rotors, True := fun _ _ => trivial
  refine ⟨fun rotors1 h => rotateRotors_rel hrefl hrot hq h, ?_, ?_, ?_⟩
  · intro message out rotors1 h
    obtain ⟨outRunes, hrun, -⟩ := EncryptMessage_some h
    exact encryptRunes_rel hrefl hrot keepsWiring_trans (fun _ _ _ _ => trivial) _ hq hrun
  · intro c d rotorsA hc h
    exact encryptStep_letter_some hc h
  · intro hne hr hreflector
    cases rotors with
    | nil => exact absurd rfl hne
    | cons a as =>
      obtain ⟨r1, rest1, h1, -, -, -⟩ := rotateRotors_wellFormed hr
      refine ⟨⟨_, h1⟩, fun message => ?_⟩
      obtain ⟨out, r2, rest2, h2, -, -⟩ :=
        encryptRunes_wellFormed plugboard hreflector (decodeRunes message) hr
      exact ⟨_, _, EncryptMessage_of_runes h2⟩

set_option maxRecDepth 100000 in
/-- C12, instance: on the machine of `main` the input "HELLO WORLD" leaves
every wiring and every notch as it was. -/
theorem rotors_mutated_only_by_stepping_witness :
    ∃ out rotors1,
      EncryptMessage [72, 69, 76, 76, 79, 32, 87, 79, 82, 76, 68] presetRotors presetReflector
        presetPlugboard = some (out, rotors1)
      ∧ List.Forall₂ KeepsWiring presetRotors rotors1 := by
  have key := rotors_mutated_only_by_stepping presetRotors presetReflector presetPlugboard
  obtain ⟨out, rotors1, h⟩ :=
    (key.2.2.2 (by decide) (by decide) (by decide)).2 [72, 69, 76, 76, 79, 32, 87, 79, 82, 76, 68]
  exact ⟨out, rotors1, h, key.2.1 _ out rotors1 h⟩

set_option maxRecDepth 100000 in
/-- C13. Reset is required between runs: on the machine of `main` from
(A,A,A) the input "A" is encrypted to "T" and leaves the rotors at (B,A,A);
feeding "T" back without a reset returns "Z", not "A". -/
theorem EncryptMessage_needs_reset :
    (presetRotors ≠ [] ∧ (∀ r ∈ presetRotors, ValidRotor r)
      ∧ ReflectorInvolution presetReflector ∧ ReflectorFixedPointFree presetReflector
      ∧ PlugboardInvolution presetPlugboard)
    ∧ ∃ out rotors1 out2 rotors2,
        EncryptMessage [65] presetRotors presetReflector presetPlugboard = some (out, rotors1)
        ∧ EncryptMessage out rotors1 presetReflector presetPlugboard = some (out2, rotors2)
        ∧ out2 ≠ [65] :=
  ⟨by decide, [84], [Rotor.mk rotorI.mapping 81 1, rotorII, rotorIII], [90],
    [Rotor.mk rotorI.mapping 81 2, rotorII, rotorIII], by decide, by decide, by decide⟩

/-- C14, as amended. A byte outside 'A'..'Z' does not make `EncryptLetter`
fail: the code has no OutOfAlphabet error.  On a valid configuration with at
least one rotor (wirings permutations of 'A'..'Z', positions in 0..25,
reflector an involution on the 26 letters, plugboard an involution on letters)
`EncryptLetter` called with any byte that is not in 'A'..'Z' returns a letter
in 'A'..'Z'. -/
theorem EncryptLetter_out_of_alphabet_returns (x : Nat) (rotors : List Rotor)
    (reflector : Reflector) (plugboard : Plugboard) (_hx : ¬ isLetter x) (hne : rotors ≠ [])
    (hr : ∀ r ∈ rotors, ValidRotor r) (hrefl : ReflectorInvolution reflector)
    (hplug : PlugboardInvolution plugboard) :
    ∃ y, EncryptLetter x rotors reflector plugboard = some y ∧ isLetter y := by
  obtain ⟨g, hg, hgl⟩ := forwardLoop_wellFormed (fun r hm => validRotor_wellFormed (hr r hm))
    hne (Plugboard.Transform plugboard x)
  obtain ⟨c, hc, hcl, -⟩ := reflector_involution hrefl hgl
  obtain ⟨hbl, -⟩ := backwardLoop_forwardLoop hr hcl
  exact ⟨Plugboard.Transform plugboard (backwardLoop rotors c),
    by simp [EncryptLetter, hg, hc], (plugboard_involution hplug hbl).1⟩

set_option maxRecDepth 100000 in
/-- C14, witness: the machine of `main` at (A,A,A) on the byte 'a'. -/
theorem EncryptLetter_out_of_alphabet_returns_witness :
    (¬ isLetter 97 ∧ presetRotors ≠ [] ∧ (∀ r ∈ presetRotors, ValidRotor r)
      ∧ ReflectorInvolution presetReflector ∧ PlugboardInvolution presetPlugboard)
    ∧ ∃ y, EncryptLetter 97 presetRotors presetReflector presetPlugboard = some y
        ∧ isLetter y :=
  ⟨by decide,
    EncryptLetter_out_of_alphabet_returns 97 presetRotors presetReflector presetPlugboard
      (by decide) (by decide) (by decide) (by decide) (by decide)⟩

set_option maxRecDepth 100000 in
/-- C14, counterexample. On the machine of `main` at (A,A,A), `EncryptLetter`
called with the byte 'a' (97) returns the letter 'J', and called with a
space (32) it returns 'L': no error is raised. -/
theorem EncryptLetter_out_of_alphabet_no_error :
    ¬ isLetter 97 ∧ ¬ isLetter 32
    ∧ EncryptLetter 97 presetRotors presetReflector presetPlugboard = some 74
    ∧ EncryptLetter 32 presetRotors presetReflector presetPlugboard = some 76 := by
  decide

/-- C15. Plugboard involution: for every plugboard map in which b maps to a
whenever a maps to b, and for every byte x, `Transform(Transform(x)) = x`; and
`Transform(x) = x` for every x that is not a key of the map. -/
theorem Plugboard_Transform_involution (plugboard : Plugboard) (x : Nat)
    (hsym : ∀ a b, List.lookup a plugboard = some b → List.lookup b plugboard = some a) :
    Plugboard.Transform plugboard (Plugboard.Transform plugboard x) = x
      ∧ (List.lookup x plugboard = none → Plugboard.Transform plugboard x = x) := by
  constructor
  · cases h : List.lookup x plugboard with
    | none =>
      have e : Plugboard.Transform plugboard x = x := by simp [Plugboard.Transform, h]
      rw [e, e]
    | some b =>
      have e : Plugboard.Transform plugboard x = b := by simp [Plugboard.Transform, h]
      rw [e]
      simp [Plugboard.Transform, hsym x b h]
  · intro h
    simp [Plugboard.Transform, h]

set_option maxRecDepth 100000 in
/-- C15, witness: the plugboard of `main` on the byte 'B', a key, and, as a
second instance, on the byte 'C', not a key. -/
theorem Plugboard_Transform_involution_witness :
    (∀ a b, List.lookup a presetPlugboard = some b → List.lookup b presetPlugboard = some a)
    ∧ (Plugboard.Transform presetPlugboard (Plugboard.Transform presetPlugboard 66) = 66
      ∧ (List.lookup 66 presetPlugboard = none → Plugboard.Transform presetPlugboard 66 = 66))
    ∧ (Plugboard.Transform presetPlugboard (Plugboard.Transform presetPlugboard 67) = 67
      ∧ (List.lookup 67 presetPlugboard = none
        → Plugboard.Transform presetPlugboard 67 = 67)) := by
  have hsym : ∀ a b, List.lookup a presetPlugboard = some b →
      List.lookup b presetPlugboard = some a := by
    intro a b h
    simp only [presetPlugboard, List.lookup] at h ⊢
    split at h
    · simp only [Option.some.injEq] at h; subst h; rename_i h1; simp at h1; subst h1; rfl
    · split at h
      · simp only [Option.some.injEq] at h; subst h; rename_i h1; simp at h1; subst h1; rfl
      · split at h
        · simp only [Option.some.injEq] at h; subst h; rename_i h1; simp at h1; subst h1; rfl
        · split at h
          · simp only [Option.some.injEq] at h; subst h; rename_i h1; simp at h1; subst h1; rfl
          · cases h
  exact ⟨hsym, Plugboard_Transform_involution presetPlugboard 66 hsym,
    Plugboard_Transform_involution presetPlugboard 67 hsym⟩

/-- C16. Step-then-encode order: for every configuration with rotors P,
every letter c in 'A'..'Z' and every string `rest`, `EncryptMessage` on c
followed by `rest` first applies `RotateRotors` once to P, giving P1, then
computes `EncryptLetter(c)` at P1, and its result is the character
`string(EncryptLetter(c))` followed by what `EncryptMessage` returns on `rest`
from P1; the call panics exactly when one of these three does.  A result
below 128, in particular every letter, is appended as that single byte. -/
theorem EncryptMessage_step_then_encode (c : Nat) (rest : List Nat) (rotors : List Rotor)
    (reflector : Reflector) (plugboard : Plugboard) (hc : isLetter c) :
    EncryptMessage (c :: rest) rotors reflector plugboard =
      (match RotateRotors rotors with
      | none => none
      | some rotors1 =>
        match EncryptLetter c rotors1 reflector plugboard with
        | none => none
        | some d =>
          match EncryptMessage rest rotors1 reflector plugboard with
          | none => none
          | some (out, rotors2) => some (encodeRune d ++ out, rotors2))
    ∧ ∀ d, d < 128 → encodeRune d = [d] := by
  constructor
  · have h128 : c < 128 := by unfold isLetter at hc; omega
    unfold EncryptMessage
    rw [decodeRunes_cons_ascii h128]
    simp only [encryptRunes, encryptStep_letter hc]
    cases RotateRotors rotors with
    | none => rfl
    | some rotors1 =>
      simp only
      cases EncryptLetter c rotors1 reflector plugboard with
      | none => rfl
      | some d =>
        simp only
        cases encryptRunes (decodeRunes rest) rotors1 reflector plugboard with
        | none => rfl
        | some p => rfl
  · intro d hd
    simp [encodeRune, hd]

set_option maxRecDepth 100000 in
/-- C16, witness: the machine of `main` on "AB": `RotateRotors` gives
(B,A,A), where A is encrypted to T, and "B" is then processed from (B,A,A). -/
theorem EncryptMessage_step_then_encode_witness :
    isLetter 65
    ∧ RotateRotors presetRotors = some [Rotor.mk rotorI.mapping 81 1, rotorII, rotorIII]
    ∧ EncryptLetter 65 [Rotor.mk rotorI.mapping 81 1, rotorII, rotorIII] presetReflector
        presetPlugboard = some 84
    ∧ EncryptMessage (65 :: [66]) presetRotors presetReflector presetPlugboard =
      (match RotateRotors presetRotors with
      | none => none
      | some rotors1 =>
        match EncryptLetter 65 rotors1 presetReflector presetPlugboard with
        | none => none
        | some d =>
          match EncryptMessage [66] rotors1 presetReflector presetPlugboard with
          | none => none
          | some (out, rotors2) => some (encodeRune d ++ out, rotors2)) :=
  ⟨by decide, by decide, by decide,
    (EncryptMessage_step_then_encode 65 [66] presetRotors presetReflector presetPlugboard
      (by decide)).1⟩

/-- C17, as amended. Carry-chain stepping policy: for every non-empty rotor
slice in which no rotor occurs twice, a call of `RotateRotors`, whenever it
returns, leaves as many rotors and touches no other memory; rotor 0 is
advanced by one call of `Rotate` unconditionally; rotor i with i >= 1 is
advanced by one call of `Rotate` if every rotor 0..i-1 carries, and is
unchanged otherwise; so no rotor is advanced twice.  One `Rotate` keeps wiring
and notch and moves a position p in 0..25 to (p + 1) mod 26.  The call
returns when every wiring has at least 26 bytes and every position is in
0..25. -/
theorem RotateRotorsPtr_carry_chain (heap : Heap) (ptrs : List Nat) (rotors : List Rotor)
    (hne : ptrs ≠ []) (hnd : ptrs.Nodup) (hd : deref heap ptrs = some rotors) :
    ((∀ r ∈ rotors, WellFormedRotor r) → ∃ heap1, RotateRotorsPtr heap ptrs = some heap1)
    ∧ (∀ heap1, RotateRotorsPtr heap ptrs = some heap1 →
        ∃ rotors1, deref heap1 ptrs = some rotors1
          ∧ rotors1.length = rotors.length
          ∧ (∀ b, b ∉ ptrs → heap1[b]? = heap[b]?)
          ∧ ∀ (i : Nat) (r : Rotor), rotors[i]? = some r →
              ∃ r1, rotors1[i]? = some r1
                ∧ ((∀ j, j < i → ∃ rj, rotors[j]? = some rj ∧ carries rj) → advancedTo r r1)
                ∧ (¬ (∀ j, j < i → ∃ rj, rotors[j]? = some rj ∧ carries rj) → r1 = r))
    ∧ (∀ r r1, advancedTo r r1 →
        KeepsWiring r r1
          ∧ (0 ≤ r.position → r.position < 26 → r1.position = (r.position + 1) % 26)) := by
  obtain ⟨hrn, hrs⟩ := rotateRotorsPtr_distinct hnd hd
  cases ptrs with
  | nil => exact absurd rfl hne
  | cons a rest =>
    obtain ⟨x, xs, -, -, rfl⟩ := deref_cons_some hd
    refine ⟨fun hr => ?_, fun heap1 h => ?_, fun r r1 hadv => ?_⟩
    · obtain ⟨r1, rest1, h1, -, -, -⟩ := rotateRotors_wellFormed hr
      obtain ⟨heap1, h2, -, -⟩ := hrs _ h1
      exact ⟨heap1, h2⟩
    · cases hv : RotateRotors (x :: xs) with
      | none => rw [hrn hv] at h; cases h
      | some rotors1 =>
        obtain ⟨heapA, hA, hdA, hfr⟩ := hrs rotors1 hv
        rw [hA] at h
        simp only [Option.some.injEq] at h
        subst h
        have hrefl : ∀ r : Rotor, True → KeepsWiring r r := fun r _ => ⟨rfl, rfl⟩
        have hrot : ∀ (r r1 : Rotor) (flag : Bool), True → r.Rotate = some (r1, flag) →
            KeepsWiring r r1 := fun r r1 flag _ h => rotate_keeps h
        have hq : ∀ r ∈ x :: xs, True := fun _ _ => trivial
        refine ⟨rotors1, hdA, (rotateRotors_rel hrefl hrot hq hv).length_eq.symm, hfr,
          fun i r hi => ?_⟩
        rw [rotateRotors_eq_loop] at hv
        obtain ⟨r1, hr1, hadv, hkeep⟩ := rotateLoop_chain hv i r hi
        exact ⟨r1, hr1, fun hc => hadv ⟨rfl, hc⟩, fun hn => hkeep (fun hc => hn hc.2)⟩
    · obtain ⟨flag, hrot⟩ := hadv
      refine ⟨rotate_keeps hrot, fun hp0 hp1 => ?_⟩
      obtain ⟨p, hp⟩ := Int.eq_ofNat_of_zero_le hp0
      rw [rotate_of_pos r p hp (by omega)] at hrot
      cases hm : r.mapping[(p + 1) % 26]? with
      | none => simp [hm] at hrot
      | some c =>
        simp only [hm, Option.map_some', Option.some.injEq, Prod.mk.injEq] at hrot
        rw [← hrot.1, hp]
        show (((p + 1) % 26 : Nat) : Int) = ((p : Int) + 1) % 26
        omega

set_option maxRecDepth 100000 in
/-- C17, witness: the rotors of `main` in three slots with rotor I at
position 6; rotor I carries (its wiring has the notch letter at index 7), so
rotor II is advanced. -/
theorem RotateRotorsPtr_carry_chain_witness :
    (([0, 1, 2] : List Nat) ≠ [] ∧ ([0, 1, 2] : List Nat).Nodup
      ∧ deref [Rotor.mk rotorI.mapping 81 6, rotorII, rotorIII] [0, 1, 2]
          = some [Rotor.mk rotorI.mapping 81 6, rotorII, rotorIII])
    ∧ ∃ heap1 rotors1 r1,
        RotateRotorsPtr [Rotor.mk rotorI.mapping 81 6, rotorII, rotorIII] [0, 1, 2] = some heap1
        ∧ deref heap1 [0, 1, 2] = some rotors1
        ∧ rotors1.length = 3 ∧ rotors1[1]? = some r1 ∧ advancedTo rotorII r1 := by
  have key := RotateRotorsPtr_carry_chain [Rotor.mk rotorI.mapping 81 6, rotorII, rotorIII]
    [0, 1, 2] [Rotor.mk rotorI.mapping 81 6, rotorII, rotorIII] (by decide) (by decide)
    (by decide)
  obtain ⟨heap1, h⟩ := key.1 (by decide)
  obtain ⟨rotors1, hd1, hlen, -, hidx⟩ := key.2.1 heap1 h
  obtain ⟨r1, hr1, hadv, -⟩ := hidx 1 rotorII (by decide)
  refine ⟨by decide, heap1, rotors1, r1, h, hd1, hlen, hr1, hadv ?_⟩
  intro j hj
  have hj0 : j = 0 := by omega
  subst hj0
  exact ⟨Rotor.mk rotorI.mapping 81 6, by decide, Rotor.mk rotorI.mapping 81 7, by decide⟩

set_option maxRecDepth 100000 in
/-- C17, counterexample. With rotor I of `main` at position 6 in both slots
of a two-rotor slice, one call of `RotateRotors` steps it to 7 through slot 0,
finds the notch letter at index 7 of its wiring, and steps the same rotor to 8
through slot 1: the rotor is advanced by two positions in one call. -/
theorem RotateRotorsPtr_steps_shared_rotor_twice :
    RotateRotorsPtr [Rotor.mk rotorI.mapping 81 6] [0, 0]
        = some [Rotor.mk rotorI.mapping 81 8]
    ∧ (Rotor.mk rotorI.mapping 81 6).Rotate = some (Rotor.mk rotorI.mapping 81 7, true)
    ∧ (8 : Int) ≠ (6 + 1) % 26 := by
  decide

/-- C18. Forward substitution formula: for every rotor whose wiring has 26
bytes in 'A'..'Z' and whose position p is in 0..25, and every letter l in
'A'..'Z' with index n = l - 'A', `TransformForward(l)` returns the letter
whose index is the non-negative remainder modulo 26 of the index of
`wiring[(n + p) mod 26]` minus p; in particular the result is in 'A'..'Z'. -/
theorem TransformForward_formula (r : Rotor) (l : Nat) (hw : LetterString r.mapping)
    (hp0 : 0 ≤ r.position) (hp1 : r.position < 26) (hl : isLetter l) :
    ∃ w y, r.mapping[(((l : Int) - 65 + r.position) % 26).toNat]? = some w
      ∧ r.TransformForward l = some y ∧ isLetter y
      ∧ (y : Int) - 65 = ((w : Int) - 65 - r.position) % 26 := by
  obtain ⟨hlen, hletters⟩ := hw
  obtain ⟨p, hp⟩ := Int.eq_ofNat_of_zero_le hp0
  have hlt : p < 26 := by omega
  have hb := byteSub_letter hl
  have hl2 := hl
  unfold isLetter at hl2
  have hidx : (((l : Int) - 65 + r.position) % 26).toNat = (byteSub l 65 + p) % 26 := by
    rw [hp, hb]; omega
  have hi : (byteSub l 65 + p) % 26 < r.mapping.length := by omega
  have hwl : isLetter (r.mapping[(byteSub l 65 + p) % 26]) :=
    hletters _ (List.getElem_mem hi)
  have hbw := byteSub_letter hwl
  unfold isLetter at hwl
  refine ⟨r.mapping[(byteSub l 65 + p) % 26],
    65 + (byteSub (r.mapping[(byteSub l 65 + p) % 26]) 65 + 26 - p) % 26, ?_, ?_, ?_, ?_⟩
  · rw [hidx, List.getElem?_eq_getElem hi]
  · rw [forward_of_pos r p l hp hlt, List.getElem?_eq_getElem hi]; rfl
  · unfold isLetter; omega
  · rw [hp, hbw]; omega

set_option maxRecDepth 100000 in
/-- C18, witness: rotor I of `main` at position 3 on the letter K. -/
theorem TransformForward_formula_witness :
    (LetterString rotorI.mapping ∧ (0 : Int) ≤ 3 ∧ (3 : Int) < 26 ∧ isLetter 75)
    ∧ ∃ w y, (Rotor.mk rotorI.mapping 81 3).mapping[(((75 : Nat) : Int) - 65
          + (Rotor.mk rotorI.mapping 81 3).position) % 26 |>.toNat]? = some w
      ∧ (Rotor.mk rotorI.mapping 81 3).TransformForward 75 = some y ∧ isLetter y
      ∧ (y : Int) - 65 = ((w : Int) - 65 - (Rotor.mk rotorI.mapping 81 3).position) % 26 :=
  ⟨by decide, TransformForward_formula (Rotor.mk rotorI.mapping 81 3) 75 (by decide)
    (by decide) (by decide) (by decide)⟩

/-- C19. Totality of step-then-encode: for every machine with at least one
rotor, every wiring of 26 bytes in 'A'..'Z', every position in 0..25, a
reflector of 26 bytes in 'A'..'Z' and a plugboard that sends letters to
letters, and for every letter in 'A'..'Z', `RotateRotors` followed by
`EncryptLetter` indexes no wiring, reflector or rotor list out of range (both
calls return) and the result is a letter in 'A'..'Z'. -/
theorem step_then_encrypt_total (rotors : List Rotor) (reflector : Reflector)
    (plugboard : Plugboard) (x : Nat) (hne : rotors ≠ [])
    (hr : ∀ r ∈ rotors, LetterString r.mapping ∧ 0 ≤ r.position ∧ r.position < 26)
    (hrefl : LetterString reflector)
    (hplug : ∀ c, isLetter c → isLetter (Plugboard.Transform plugboard c))
    (_hx : isLetter x) :
    ∃ rotors1 y, RotateRotors rotors = some rotors1
      ∧ EncryptLetter x rotors1 reflector plugboard = some y ∧ isLetter y :=
  step_encrypt_total hne (fun r hm => ⟨(hr r hm).1.1, (hr r hm).2⟩)
    (by rw [hrefl.1]) hplug x

set_option maxRecDepth 100000 in
/-- C19, witness: the machine of `main` from (A,A,A) on the letter H. -/
theorem step_then_encrypt_total_witness :
    (presetRotors ≠ []
      ∧ (∀ r ∈ presetRotors, LetterString r.mapping ∧ 0 ≤ r.position ∧ r.position < 26)
      ∧ LetterString presetReflector
      ∧ (∀ i, i < 26 → isLetter (Plugboard.Transform presetPlugboard (i + 65)))
      ∧ isLetter 72)
    ∧ ∃ rotors1 y, RotateRotors presetRotors = some rotors1
      ∧ EncryptLetter 72 rotors1 presetReflector presetPlugboard = some y ∧ isLetter y := by
  have hplug : ∀ i, i < 26 → isLetter (Plugboard.Transform presetPlugboard (i + 65)) := by
    decide
  refine ⟨⟨by decide, by decide, by decide, hplug, by decide⟩,
    step_then_encrypt_total presetRotors presetReflector presetPlugboard 72 (by decide)
      (by decide) (by decide) ?_ (by decide)⟩
  intro c hc
  unfold isLetter at hc
  have := hplug (c - 65) (by omega)
  rwa [show c - 65 + 65 = c by omega] at this

/-- C20. Position range invariant: if every rotor's position is in 0..25
before the call, then whenever `Rotate`, `RotateRotors` or `EncryptMessage`
(on any input string) returns, every rotor's position is in 0..25
afterwards.  The calls do return when every wiring has at least 26 bytes and,
for `RotateRotors` and `EncryptMessage`, there is at least one rotor and, for
`EncryptMessage`, the reflector has at least 26 bytes. -/
theorem position_range_invariant (rotors : List Rotor) (reflector : Reflector)
    (plugboard : Plugboard) (hpos : ∀ r ∈ rotors, 0 ≤ r.position ∧ r.position < 26) :
    (∀ r ∈ rotors, ∀ r1 flag, r.Rotate = some (r1, flag) →
        0 ≤ r1.position ∧ r1.position < 26)
    ∧ (∀ rotors1, RotateRotors rotors = some rotors1 →
        ∀ r ∈ rotors1, 0 ≤ r.position ∧ r.position < 26)
    ∧ (∀ message out rotors1,
        EncryptMessage message rotors reflector plugboard = some (out, rotors1) →
        ∀ r ∈ rotors1, 0 ≤ r.position ∧ r.position < 26)
    ∧ ((∀ r ∈ rotors, 26 ≤ r.mapping.length) →
        (∀ r ∈ rotors, ∃ r1 flag, r.Rotate = some (r1, flag))
        ∧ (rotors ≠ [] →
            (∃ rotors1, RotateRotors rotors = some rotors1)
            ∧ (26 ≤ reflector.length → ∀ message, ∃ out rotors1,
                EncryptMessage message rotors reflector plugboard = some (out, rotors1)))) := by
  have hrefl : ∀ r : Rotor, (0 ≤ r.position ∧ r.position < 26) → SameWiring r r :=
    fun r h => ⟨rfl, rfl, h.1, h.2⟩
  have hrot : ∀ (r r1 : Rotor) (flag : Bool), (0 ≤ r.position ∧ r.position < 26) →
      r.Rotate = some (r1, flag) → SameWiring r r1 :=
    fun r r1 flag hq h => rotate_range hq.1 hq.2 h
  have hpres : ∀ a b : Rotor, (0 ≤ a.position ∧ a.position < 26) → SameWiring a b →
      (0 ≤ b.position ∧ b.position < 26) := fun a b _ h => ⟨h.2.2.1, h.2.2.2⟩
  have htrans : ∀ a b c : Rotor, SameWiring a b → SameWiring b c → SameWiring a c :=
    fun a b c h1 h2 => sameWiring_trans_rotor h1 h2
  refine ⟨?_, ?_, ?_, ?_⟩
  · intro r hm r1 flag h
    have := rotate_range (hpos r hm).1 (hpos r hm).2 h
    exact ⟨this.2.2.1, this.2.2.2⟩
  · intro rotors1 h
    exact forall2_preserves hpres (rotateRotors_rel hrefl hrot hpos h) hpos
  · intro message out rotors1 h
    obtain ⟨outRunes, hrun, -⟩ := EncryptMessage_some h
    exact forall2_preserves hpres (encryptRunes_rel hrefl hrot htrans hpres _ hpos hrun) hpos
  · intro hlen
    have hwf : ∀ r ∈ rotors, WellFormedRotor r := fun r hm =>
      ⟨hlen r hm, (hpos r hm).1, (hpos r hm).2⟩
    refine ⟨fun r hm => ?_, fun hne => ?_⟩
    · obtain ⟨r1, flag, h, -⟩ := rotate_wellFormed (hwf r hm)
      exact ⟨r1, flag, h⟩
    · cases rotors with
      | nil => exact absurd rfl hne
      | cons a as =>
        obtain ⟨r1, rest1, h1, -, -, -⟩ := rotateRotors_wellFormed hwf
        refine ⟨⟨_, h1⟩, fun hreflector message => ?_⟩
        obtain ⟨out, r2, rest2, h2, -, -⟩ :=
          encryptRunes_wellFormed plugboard hreflector (decodeRunes message) hwf
        exact ⟨_, _, EncryptMessage_of_runes h2⟩

set_option maxRecDepth 100000 in
/-- C20, witness: the machine of `main` from (A,A,A) on "HELLO WORLD". -/
theorem position_range_invariant_witness :
    (∀ r ∈ presetRotors, 0 ≤ r.position ∧ r.position < 26)
    ∧ ∃ out rotors1,
        EncryptMessage [72, 69, 76, 76, 79, 32, 87, 79, 82, 76, 68] presetRotors presetReflector
          presetPlugboard = some (out, rotors1)
        ∧ ∀ r ∈ rotors1, 0 ≤ r.position ∧ r.position < 26 := by
  have key := position_range_invariant presetRotors presetReflector presetPlugboard (by decide)
  obtain ⟨out, rotors1, h⟩ := (key.2.2.2 (by decide)).2 (by decide) |>.2 (by decide)
    [72, 69, 76, 76, 79, 32, 87, 79, 82, 76, 68]
  exact ⟨by decide, out, rotors1, h, key.2.2.1 _ out rotors1 h⟩

end Enigma
